import Mathlib

/-
Verification of the range2cidr library: a shallow embedding of the Go source
(byte-level 128-bit address arithmetic, range deaggregation into CIDR
prefixes, and range aggregation) together with proofs about the embedded
definitions.

Modelling conventions:
- Go `[16]byte` values become `List Nat` with the well-formedness predicate
  `Bytes 16` (length 16, every byte below 256); `val` is the big-endian
  numeric value of such a list.
- Go loops that mutate local state become structural recursion or folds.
- The byte-array deaggregation loop in the source does not terminate for
  ranges whose high end is the maximum address (the bit scan never exits
  once every bit of the low bound is zero and the upper bound is all-ones),
  so it is embedded with an explicit fuel parameter; a run of the source
  loop that terminates corresponds to `some` for every sufficiently large
  fuel, and divergence corresponds to `none` for every fuel.
- `math/big.Int` (unbounded integers) in the older slice-based entry point
  becomes plain `Nat`, and that loop is defined by well-founded recursion
  because it always terminates.
- Go's `net/netip` types are modelled by `NAddr` (an address family tag plus
  the 16-byte `As16` form) and `Pfx` (address plus prefix length), with the
  documented semantics of the `netip` functions the source calls.
-/

namespace R2C

/-- Well-formedness of a Go byte array of width `w`: the list has length `w`
and every entry is a byte value. -/
def Bytes (w : Nat) (l : List Nat) : Prop :=
  l.length = w ∧ ∀ b ∈ l, b < 256

instance (w : Nat) (l : List Nat) : Decidable (Bytes w l) := by
  unfold Bytes
  exact instDecidableAnd

/-- Big-endian numeric value of a byte list (byte 0 most significant),
as produced by `big.Int.SetBytes` on the same bytes. -/
def val : List Nat → Nat
  | [] => 0
  | b :: t => b * 256 ^ t.length + val t

/-- Embeds Go `func Cmp(a, b *[16]byte) int`: lexicographic byte
comparison returning -1, 0 or 1. -/
def Cmp : List Nat → List Nat → Int
  | a :: as, b :: bs =>
    if a < b then -1
    else if b < a then 1
    else Cmp as bs
  | _, _ => 0

/-- Embeds Go `func Add(a, b *[16]byte) ([16]byte, int)`: bytewise addition
from the least significant end with carry propagation; returns the sum bytes
and the final carry bit. -/
def Add : List Nat → List Nat → List Nat × Nat
  | a :: as, b :: bs =>
    let p := Add as bs
    let v := a + b + p.2
    if v < 256 then (v :: p.1, 0) else (v % 256 :: p.1, 1)
  | _, _ => ([], 0)

/-- Embeds Go `func GetBit(a *[16]byte, n uint) bool`: bit `n` counted from
the least significant bit of the last byte; `false` when the byte index
`15 - n/8` would be negative (that is, when `n` is at least 128). -/
def GetBit (a : List Nat) (n : Nat) : Bool :=
  if 15 < n / 8 then false
  else Nat.testBit (a.getD (15 - n / 8) 0) (n % 8)

/-- Embeds Go `func SetBit(a *[16]byte, n uint, bSet bool)`: sets or clears
bit `n` in place; a no-op when the byte index would be negative (`n` at
least 128). The Go `&^` operator on a byte is conjunction with the 8-bit
complement of the mask. -/
def SetBit (a : List Nat) (n : Nat) (bSet : Bool) : List Nat :=
  if 15 < n / 8 then a
  else
    let i := 15 - n / 8
    let b := a.getD i 0
    a.set i (if bSet then b ||| (1 <<< (n % 8)) else b &&& (255 ^^^ (1 <<< (n % 8))))

/-- Embeds the Go loop `for i := range NEXT { NEXT[i] |= lowOrderMask[i] }`:
bytewise bitwise-or of two arrays. -/
def OrBytes (a b : List Nat) : List Nat :=
  List.zipWith (fun x y => x ||| y) a b

/-- The all-zero 16-byte array (Go `var x [16]byte`). -/
def zero16 : List Nat := List.replicate 16 0

/-- The all-ones 16-byte array, value 2^128 - 1. -/
def max16 : List Nat := List.replicate 16 255

/-- The 16-byte array holding 1, built the way the source builds it:
`var one [16]byte; SetBit(&one, 0, true)`. -/
def one16 : List Nat := SetBit zero16 0 true

/-- Big-endian byte list of width `w` for a numeric value, as produced by
`big.Int.FillBytes` into a `w`-byte slice. -/
def byteRep : Nat → Nat → List Nat
  | 0, _ => []
  | w + 1, n => ((n / 256 ^ w) % 256) :: byteRep w n

/-- Address family tag of the `netip.Addr` model: the zero `netip.Addr` is
invalid, other addresses are IPv4 or IPv6 values. -/
inductive AFam
  | invalid
  | v4
  | v6
deriving DecidableEq, Repr

/-- Model of `netip.Addr`: the family tag together with the 16-byte `As16`
form (for an IPv4 address this is the IPv4-mapped form, which is what
`Addr.As16` returns). -/
structure NAddr where
  fam : AFam
  bs : List Nat
deriving DecidableEq, Repr

/-- Model of `netip.Addr.IsValid`. -/
def NAddr.isValid (a : NAddr) : Bool :=
  match a.fam with
  | AFam.invalid => false
  | _ => true

/-- Model of `netip.Addr.Is4`: true only for IPv4-form addresses. -/
def NAddr.is4 (a : NAddr) : Bool :=
  match a.fam with
  | AFam.v4 => true
  | _ => false

/-- Model of `netip.Addr.Is6`: true only for IPv6-form addresses
(IPv4-mapped addresses included). -/
def NAddr.is6 (a : NAddr) : Bool :=
  match a.fam with
  | AFam.v6 => true
  | _ => false

/-- The IPv4-in-IPv6 mapped byte pattern: ten zero bytes followed by two
0xff bytes in front of the 4 IPv4 bytes. -/
def mappedPattern (bs : List Nat) : Bool :=
  decide (bs.take 12 = [0, 0, 0, 0, 0, 0, 0, 0, 0, 0, 255, 255])

/-- Model of `netip.Addr.Is4In6`: an IPv6-form address whose bytes carry the
IPv4-mapped pattern. -/
def NAddr.is4In6 (a : NAddr) : Bool :=
  a.is6 && mappedPattern a.bs

/-- Model of `netip.Addr.Unmap`: an IPv4-mapped IPv6 address becomes the
IPv4 address with the same 16-byte form; other addresses are unchanged. -/
def NAddr.unmap (a : NAddr) : NAddr :=
  if a.is4In6 then { fam := AFam.v4, bs := a.bs } else a

/-- Model of `netip.AddrFrom16`: always yields an IPv6-form address. -/
def AddrFrom16 (bs : List Nat) : NAddr :=
  { fam := AFam.v6, bs := bs }

/-- Model of `netip.Addr.As16`. -/
def NAddr.as16 (a : NAddr) : List Nat :=
  a.bs

/-- Model of `netip.Addr.BitLen`: 0 for the invalid address, 32 for IPv4,
128 for IPv6. -/
def NAddr.bitLen (a : NAddr) : Nat :=
  match a.fam with
  | AFam.invalid => 0
  | AFam.v4 => 32
  | AFam.v6 => 128

/-- Model of `netip.Addr.AsSlice`: 4 bytes for IPv4, 16 bytes for IPv6,
nil for the invalid address. -/
def NAddr.asSlice (a : NAddr) : List Nat :=
  match a.fam with
  | AFam.invalid => []
  | AFam.v4 => a.bs.drop 12
  | AFam.v6 => a.bs

/-- Model of `netip.Prefix`: an address and a prefix length in bits
(-1 marks the invalid prefix, as in the Go implementation). -/
structure Pfx where
  addr : NAddr
  bits : Int
deriving DecidableEq, Repr

/-- Model of `netip.PrefixFrom`: stores the bit count, replacing it by -1
when it is negative or exceeds the address bit length. -/
def PrefixFrom (ip : NAddr) (b : Int) : Pfx :=
  if b < 0 ∨ (ip.bitLen : Int) < b then { addr := ip, bits := -1 }
  else { addr := ip, bits := b }

/-- Model of `netip.Prefix.Masked`: zeroes the host bits of the address,
keeping the family; an invalid prefix yields the zero prefix. -/
def Pfx.masked (p : Pfx) : Pfx :=
  if 0 ≤ p.bits ∧ p.bits ≤ (p.addr.bitLen : Int) then
    let host := p.addr.bitLen - p.bits.toNat
    { addr := { fam := p.addr.fam, bs := byteRep 16 (val p.addr.bs / 2 ^ host * 2 ^ host) },
      bits := p.bits }
  else { addr := { fam := AFam.invalid, bs := List.replicate 16 0 }, bits := 0 }

/-- Embeds the Go `Range` struct: two 16-byte endpoints. -/
structure Range where
  A : List Nat
  Z : List Nat
deriving DecidableEq, Repr

instance : IsAntisymm Range (fun a b => val a.A < val b.A) :=
  ⟨fun _ _ h1 h2 => absurd h1 (by omega)⟩

/-- Embeds `func (v *Range) Normalize()`: swap the endpoints when `A > Z`. -/
def Range.Normalize (v : Range) : Range :=
  if Cmp v.A v.Z = 1 then { A := v.Z, Z := v.A } else v

/-- Embeds `func RangeFromPrefix(pfx netip.Prefix) Range`: the low endpoint
is the masked base address, the high endpoint is the low endpoint with all
host bits set one by one via `SetBit`. -/
def RangeFromPrefix (pfx : Pfx) : Range :=
  let A := (pfx.masked).addr.as16
  let ixEnd : Int := (pfx.addr.bitLen : Int) - pfx.bits
  let Z := (List.range ixEnd.toNat).foldl (fun z i => SetBit z i true) A
  { A := A, Z := Z }

/-- Embeds the inner bit-scan loop of `splitIntoPrefixes` (part_003): grow
`nStep` while bit `nStep` of the low bound is clear and or-ing the grown
low-order mask into the low bound does not exceed the high bound. The fuel
parameter counts loop iterations; the source loop diverges (never exits)
exactly when the scan runs out of any fuel, because `GetBit` is `false` for
every index from 128 on and the mask stops growing there. -/
def innerScan (lo hi : List Nat) (mask : List Nat) (nStep : Nat) : Nat → Option Nat
  | 0 => none
  | fuel + 1 =>
    if GetBit lo nStep then some nStep
    else
      let mask2 := SetBit mask nStep true
      let NEXT := OrBytes lo mask2
      if Cmp NEXT hi = 1 then some nStep
      else innerScan lo hi mask2 (nStep + 1) fuel

/-- Emission step of `splitIntoPrefixes` (part_003): convert the current
low bound back to a `netip.Addr`, unmap it when it is IPv4-mapped (reducing
the mask bit count by 96), and build the prefix. -/
def emit (lo : List Nat) (nStep : Nat) : Pfx :=
  let addr0 := AddrFrom16 lo
  let nMaskBits : Int := 128 - (nStep : Int)
  if addr0.is4In6 then PrefixFrom addr0.unmap (nMaskBits - 96)
  else PrefixFrom addr0 nMaskBits

/-- Embeds the outer loop of `func splitIntoPrefixes(bsIpLo, bsIpHi
[16]byte) []netip.Prefix` (part_003) with fuel counting outer iterations.
Each iteration scans for the block size `nStep` (inner fuel 200 is more
than the at most 129 iterations any terminating scan performs, so `none`
from the scan coincides with divergence of the source loop), emits one
prefix, and advances the low bound by `2 ^ nStep` via `Add`, dropping the
carry exactly as the source does. -/
def splitFuel (lo hi : List Nat) : Nat → Option (List Pfx)
  | 0 => none
  | fuel + 1 =>
    if Cmp lo hi = 1 then some []
    else
      match innerScan lo hi zero16 0 200 with
      | none => none
      | some nStep =>
        let tmp := SetBit zero16 nStep true
        match splitFuel (Add lo tmp).1 hi fuel with
        | none => none
        | some rest => some (emit lo nStep :: rest)

/-- Embeds `splitIntoPrefixes` (part_003): runs the fueled loop with enough
fuel for every terminating run (the low bound strictly increases each
iteration whenever the loop terminates at all, so `val hi + 2 - val lo`
iterations always suffice). -/
def splitIntoPrefixes (lo hi : List Nat) : Option (List Pfx) :=
  splitFuel lo hi (val hi + 1 - val lo + 1)

/-- Embeds `func (v Range) Deaggregate() []netip.Prefix` (part_003):
normalize, then split into prefixes. `none` models divergence of the
source loop. The part_002 `Deaggregate` has the same body with the swap
written inline, so this single definition embeds both. -/
def Range.Deaggregate (v : Range) : Option (List Pfx) :=
  let w := v.Normalize
  splitIntoPrefixes w.A w.Z

/-- Insertion of one element in front of the first element the comparison
does not place after it. Used by `sortR`. -/
def insertR (le : Range → Range → Bool) (r : Range) : List Range → List Range
  | [] => [r]
  | s :: t => if le r s then r :: s :: t else s :: insertR le r t

/-- Insertion sort by a boolean comparison. This models Go
`slices.SortFunc`, whose only guarantee is a permutation of the input
ordered by the comparator (the Go sort is unstable, so the order of
elements the comparator ties is unspecified there; every claim proved
below is insensitive to tie order). -/
def sortR (le : Range → Range → Bool) : List Range → List Range
  | [] => []
  | r :: t => insertR le r (sortR le t)

/-- The part_003 `Aggregate` comparator: `Cmp(&a.A, &b.A)` ascending. -/
def newLe (a b : Range) : Bool :=
  decide (Cmp a.A b.A ≤ 0)

/-- One iteration of the part_003 `Aggregate` merge sweep, acting on the
stack of finished ranges plus the current accumulator `sR[j]`: merge when
`Cmp(sR[i].A, sR[j].A) ≥ 0` and `Cmp(sR[i].A, nextZ) ≤ 0` where `nextZ`
is `Add(sR[j].Z, one)` with the carry dropped, raising the accumulator
high end to the larger of the two; otherwise push. -/
def sweepStep (st : List Range × Range) (r : Range) : List Range × Range :=
  let done := st.1
  let top := st.2
  let cmpAA := Cmp r.A top.A
  let nextZ := (Add top.Z one16).1
  let cmpAZ := Cmp r.A nextZ
  if 0 ≤ cmpAA ∧ cmpAZ ≤ 0 then
    (done, { A := top.A, Z := if Cmp r.Z top.Z = 1 then r.Z else top.Z })
  else (done ++ [top], r)

/-- Embeds `func Aggregate(sR []Range) []Range` (part_003): collections of
fewer than two ranges are returned unchanged; otherwise every range is
normalized, the collection is sorted by ascending low endpoint, and a
single sweep merges overlapping or adjacent ranges. -/
def Aggregate (sR : List Range) : List Range :=
  if sR.length < 2 then sR
  else
    match sortR newLe (sR.map Range.Normalize) with
    | [] => []
    | h :: t =>
      let st := t.foldl sweepStep ([], h)
      st.1 ++ [st.2]

/-- The part_002 `Aggregate` comparator: `.A` ascending with ties broken by
`.Z` descending. -/
def oldLe (a b : Range) : Bool :=
  decide ((if Cmp a.A b.A = 0 then Cmp b.Z a.Z else Cmp a.A b.A) ≤ 0)

/-- One iteration of the part_002 `Aggregate` sweep: drop a range fully
contained in the accumulator, extend the accumulator on exact adjacency
(`sR[i].A` equal to `sR[j].Z + 1`), otherwise push. -/
def oldStep (st : List Range × Range) (r : Range) : List Range × Range :=
  let done := st.1
  let top := st.2
  let cmpA := Cmp r.A top.A
  if 0 ≤ cmpA ∧ Cmp r.Z top.Z ≤ 0 then (done, top)
  else if 0 < cmpA ∧ Cmp r.A (Add top.Z one16).1 = 0 then (done, { A := top.A, Z := r.Z })
  else (done ++ [top], r)

/-- Embeds `func Aggregate(sR []Range) []netip.Prefix` (part_002): empty
input yields nil, a single range is deaggregated directly, and otherwise
the sorted collection is swept and every surviving range deaggregated,
concatenating the results. -/
def AggregateOld (sR : List Range) : Option (List Pfx) :=
  match sR with
  | [] => some []
  | [r] => r.Deaggregate
  | _ =>
    match sortR oldLe sR with
    | [] => some []
    | h :: t =>
      let st := t.foldl oldStep ([], h)
      ((st.1 ++ [st.2]).mapM Range.Deaggregate).map List.flatten

/-- Embeds the error enumeration of `range2cidr.go`. -/
inductive RErr
  | EIpVersionMismatch
  | EIpInvalid
deriving DecidableEq, Repr

/-- Embeds the inner bit-scan loop of `splitIntoCidrs` (range2cidr.go),
which works on unbounded `big.Int` values: grow `nStep` while bit `nStep`
of the low bound is zero and the or of the grown low-order mask does not
exceed the high bound. Unlike the byte-array scan this always terminates,
because the mask keeps growing without the 128-bit cap. -/
def cidrScan (lo hi : Nat) (mask nStep : Nat) : Nat :=
  if lo.testBit nStep then nStep
  else
    let mask2 := mask ||| 1 <<< nStep
    let NEXT := lo ||| mask2
    if hi < NEXT then nStep
    else cidrScan lo hi mask2 (nStep + 1)
termination_by hi + 2 - 2 ^ nStep
decreasing_by
  rename_i _hbit hle
  have h1 : (lo ||| (mask ||| 1 <<< nStep)).testBit nStep = true := by
    simp [Nat.testBit_lor, Nat.one_shiftLeft, Nat.testBit_two_pow_self]
  have h2 : 2 ^ nStep ≤ hi := le_trans (Nat.testBit_implies_ge h1) (Nat.le_of_not_lt hle)
  have h3 : 2 ^ nStep < 2 ^ (nStep + 1) := Nat.pow_lt_pow_succ (by norm_num)
  omega

/-- Model of `netip.AddrFromSlice`: 4 bytes give an IPv4 address (whose
`As16` form is the IPv4-mapped pattern), 16 bytes an IPv6 address, any
other length fails. -/
def AddrFromSlice (bs : List Nat) : Option NAddr :=
  if bs.length = 4 then some { fam := AFam.v4, bs := [0, 0, 0, 0, 0, 0, 0, 0, 0, 0, 255, 255] ++ bs }
  else if bs.length = 16 then some { fam := AFam.v6, bs := bs }
  else none

/-- Embeds `func splitIntoCidrs(bsIpLo, bsIpHi []byte) []netip.Prefix`
(range2cidr.go) on the numeric values of the two slices: the `big.Int`
values become `Nat`, `FillBytes` becomes `byteRep` at the slice width, and
a prefix is emitted only when `AddrFromSlice` accepts the refilled slice.
The low bound grows by `2 ^ nStep` (no wraparound: `big.Int` is
unbounded), so the loop terminates on every input. -/
def splitIntoCidrs (lo hi : Nat) (nBytes : Nat) : List Pfx :=
  if hi < lo then []
  else
    let nStep := cidrScan lo hi 0 0
    let nBits := nBytes * 8
    let pfxs :=
      match AddrFromSlice (byteRep nBytes lo) with
      | some addr => [PrefixFrom addr ((nBits : Int) - (nStep : Int))]
      | none => []
    pfxs ++ splitIntoCidrs (lo + 1 <<< nStep) hi nBytes
termination_by hi + 1 - lo
decreasing_by
  rename_i hge
  have h1 : 0 < 1 <<< cidrScan lo hi 0 0 := by
    have := Nat.one_shiftLeft (cidrScan lo hi 0 0)
    have := Nat.pos_pow_of_pos (cidrScan lo hi 0 0) (show 0 < 2 by norm_num)
    omega
  omega

/-- Embeds the boundary entry point `func Deaggregate(ipLo, ipHi
netip.Addr) ([]netip.Prefix, error)` (range2cidr.go): reject when both
addresses are invalid, unmap IPv4-mapped forms, reject mixed families,
sort the two byte slices by `bytes.Compare`, and split. -/
def Deaggregate (ipLo ipHi : NAddr) : Except RErr (List Pfx) :=
  if ipLo.isValid = false ∧ ipHi.isValid = false then Except.error RErr.EIpInvalid
  else
    let lo := if ipLo.is4In6 then ipLo.unmap else ipLo
    let hi := if ipHi.is4In6 then ipHi.unmap else ipHi
    if ¬(lo.is4 = true ∧ hi.is4 = true) ∧ ¬(lo.is6 = true ∧ hi.is6 = true) then
      Except.error RErr.EIpVersionMismatch
    else
      let sLo := lo.asSlice
      let sHi := hi.asSlice
      let p := if Cmp sLo sHi = 1 then (sHi, sLo) else (sLo, sHi)
      Except.ok (splitIntoCidrs (val p.1) (val p.2) p.1.length)

/-- The address family after the boundary layer's 4-in-6 unmapping step:
the family of `if a.Is4In6() { a = a.Unmap() }`. -/
def unmappedFam (a : NAddr) : AFam :=
  (if a.is4In6 then a.unmap else a).fam

/-- Number of host bits of a prefix: address bit length minus prefix
length. -/
def hostB (p : Pfx) : Nat :=
  p.addr.bitLen - p.bits.toNat

/-- Base of a prefix as a 128-bit value (the value of its `As16` form,
so IPv4 bases appear at their IPv4-mapped position). -/
def baseV (p : Pfx) : Nat :=
  val p.addr.bs

/-- Membership of a 128-bit address value in the block a prefix denotes. -/
def memP (p : Pfx) (x : Nat) : Prop :=
  baseV p ≤ x ∧ x ≤ baseV p + 2 ^ hostB p - 1

instance (p : Pfx) (x : Nat) : Decidable (memP p x) := by
  unfold memP
  exact instDecidableAnd

/-- The address bit width the spec assigns to a prefix: 32 for IPv4
results, 128 otherwise. -/
def addressBits (p : Pfx) : Nat :=
  match p.addr.fam with
  | AFam.v4 => 32
  | _ => 128

/-- The base address of a prefix in its own family: the IPv4 value for
IPv4 results (low 32 bits of the mapped form), the full 128-bit value
otherwise. -/
def baseAddrNat (p : Pfx) : Nat :=
  match p.addr.fam with
  | AFam.v4 => val p.addr.bs % 2 ^ 32
  | _ => val p.addr.bs

/-- The prefix list `l` tiles the address interval from `a` to `z`
exactly: each node is the block the source emits at base `a` for some
aligned size `2 ^ k` that fits below `z` and is maximal (either bit `k`
of the base is set or doubling the block would overshoot `z`), and the
rest tiles the remainder starting right after the block. -/
def Tiles : Nat → Nat → List Pfx → Prop
  | a, z, [] => z < a
  | a, z, p :: rest =>
    ∃ k, k ≤ 128 ∧ p = emit (byteRep 16 a) k ∧ a % 2 ^ k = 0 ∧
      a + 2 ^ k - 1 ≤ z ∧ (a.testBit k = true ∨ z < a + 2 ^ (k + 1) - 1) ∧
      Tiles (a + 2 ^ k) z rest

/-- A 128-bit address value lies in one of the ranges of a list (ranges
read as closed intervals from `A` to `Z`). -/
def covers (l : List Range) (x : Nat) : Prop :=
  ∃ r ∈ l, val r.A ≤ x ∧ x ≤ val r.Z

/-- A 128-bit address value lies in one of the ranges of a list when each
range is read as the closed interval between its two endpoints in either
order (the denotation of a possibly not yet normalized input range). -/
def coversIn (l : List Range) (x : Nat) : Prop :=
  ∃ r ∈ l, min (val r.A) (val r.Z) ≤ x ∧ x ≤ max (val r.A) (val r.Z)

/-- Two ranges are disjoint and not adjacent (a gap of at least one
address on one side or the other). -/
def disjNA (r s : Range) : Prop :=
  val r.Z + 1 < val s.A ∨ val s.Z + 1 < val r.A

instance (r s : Range) : Decidable (disjNA r s) := by
  unfold disjNA
  infer_instance

/-- Normalization written from the spec's words: swap when low exceeds
high, comparing as unsigned values. Proved to agree with the embedded
`Range.Normalize` on well-formed inputs. -/
def specNormalize (v : Range) : Range :=
  if val v.Z < val v.A then { A := v.Z, Z := v.A } else v

/-- The spec's sort order: ascending low endpoint as unsigned value. -/
def specLe (a b : Range) : Bool :=
  decide (val a.A ≤ val b.A)

/-- One sweep step written from the spec's words (section 4.4): merge
exactly when the next range's low end is at most the accumulator's high
end plus one (true successor, no wraparound), raising the accumulator's
high end to the larger value; otherwise push. -/
def specStep (st : List Range × Range) (r : Range) : List Range × Range :=
  if val r.A ≤ val st.2.Z + 1 then
    (st.1, { A := st.2.A, Z := if val st.2.Z < val r.Z then r.Z else st.2.Z })
  else (st.1 ++ [st.2], r)

/-- The aggregation algorithm written from the spec's words, used as the
comparison side of the refinement conjunct of the aggregation claim:
normalize, sort by ascending low endpoint, sweep with the true-successor
merge condition. -/
def specAggregate (sR : List Range) : List Range :=
  if sR.length < 2 then sR
  else
    match sortR specLe (sR.map specNormalize) with
    | [] => []
    | h :: t =>
      let st := t.foldl specStep ([], h)
      st.1 ++ [st.2]

theorem pow256 (w : Nat) : 256 ^ w = 2 ^ (8 * w) := by
  rw [show (256 : Nat) = 2 ^ 8 by norm_num, ← pow_mul]

theorem tb_div (x m i : Nat) : (x / 2 ^ m).testBit i = x.testBit (m + i) := by
  rw [Nat.testBit_to_div_mod, Nat.testBit_to_div_mod, Nat.div_div_eq_div_mul, ← pow_add]

theorem tb_split {r m : Nat} (x k : Nat) (hr : r < 2 ^ m) :
    (x * 2 ^ m + r).testBit k = if k < m then r.testBit k else x.testBit (k - m) := by
  by_cases hk : k < m
  · have hm : x * 2 ^ m + r = r + 2 ^ k * (x * 2 ^ (m - k)) := by
      have : 2 ^ k * 2 ^ (m - k) = 2 ^ m := by
        rw [← pow_add]
        congr 1
        omega
      calc x * 2 ^ m + r = r + x * (2 ^ k * 2 ^ (m - k)) := by rw [this]; ring
        _ = r + 2 ^ k * (x * 2 ^ (m - k)) := by ring
    have hsplit : x * 2 ^ (m - k) = x * 2 ^ (m - k - 1) * 2 := by
      have : 2 ^ (m - k) = 2 ^ (m - k - 1) * 2 := by
        rw [← pow_succ]
        congr 1
        omega
      rw [this]; ring
    rw [if_pos hk, Nat.testBit_to_div_mod, Nat.testBit_to_div_mod, hm,
      Nat.add_mul_div_left _ _ (Nat.pos_pow_of_pos k (by norm_num)), hsplit,
      Nat.add_mul_mod_self_right]
  · have hk2 : m ≤ k := Nat.le_of_not_lt hk
    have hdiv : (x * 2 ^ m + r) / 2 ^ m = x := by
      rw [show x * 2 ^ m + r = r + 2 ^ m * x by ring,
        Nat.add_mul_div_left _ _ (Nat.pos_pow_of_pos m (by norm_num)),
        Nat.div_eq_of_lt hr, Nat.zero_add]
    rw [if_neg hk, Nat.testBit_to_div_mod, Nat.testBit_to_div_mod]
    have : (x * 2 ^ m + r) / 2 ^ k = x / 2 ^ (k - m) := by
      rw [show 2 ^ k = 2 ^ m * 2 ^ (k - m) by rw [← pow_add]; congr 1; omega,
        ← Nat.div_div_eq_div_mul, hdiv]
    rw [this]

theorem lor_base {r s m : Nat} (x y : Nat) (hr : r < 2 ^ m) (hs : s < 2 ^ m) :
    (x * 2 ^ m + r) ||| (y * 2 ^ m + s) = (x ||| y) * 2 ^ m + (r ||| s) := by
  apply Nat.eq_of_testBit_eq
  intro k
  rw [Nat.testBit_lor, tb_split x k hr, tb_split y k hs,
    tb_split (x ||| y) k (Nat.or_lt_two_pow hr hs)]
  by_cases hk : k < m
  · simp [hk, Nat.testBit_lor]
  · simp [hk, Nat.testBit_lor]

theorem lor_eq_add {m : Nat} (x y : Nat) (hx : x % 2 ^ m = 0) (hy : y < 2 ^ m) :
    x ||| y = x + y := by
  have hdvd : x / 2 ^ m * 2 ^ m = x := Nat.div_mul_cancel (Nat.dvd_of_mod_eq_zero hx)
  calc x ||| y = (x / 2 ^ m * 2 ^ m + 0) ||| (0 * 2 ^ m + y) := by
        rw [hdvd]
        norm_num
    _ = (x / 2 ^ m ||| 0) * 2 ^ m + (0 ||| y) :=
        lor_base _ _ (Nat.pos_pow_of_pos m (by norm_num)) hy
    _ = x + y := by rw [Nat.or_zero, Nat.zero_or, hdvd]

theorem testBit_false_of_aligned {x j i : Nat} (hx : x % 2 ^ j = 0) (hi : i < j) :
    x.testBit i = false := by
  have h1 : (x % 2 ^ j).testBit i = (decide (i < j) && x.testBit i) := Nat.testBit_mod_two_pow x j i
  rw [hx] at h1
  simp [hi] at h1
  exact h1

theorem aligned_succ {x j : Nat} (hx : x % 2 ^ j = 0) (hb : x.testBit j = false) :
    x % 2 ^ (j + 1) = 0 := by
  apply Nat.zero_of_testBit_eq_false
  intro i
  rw [Nat.testBit_mod_two_pow]
  by_cases hi : i < j + 1
  · by_cases hij : i < j
    · simp [testBit_false_of_aligned hx hij]
    · have : i = j := by omega
      simp [this, hb]
  · simp [hi]

theorem aligned_lor_ones {x m : Nat} (hx : x % 2 ^ m = 0) :
    x ||| (2 ^ m - 1) = x + (2 ^ m - 1) :=
  lor_eq_add x (2 ^ m - 1) hx (by have := Nat.pos_pow_of_pos m (show 0 < 2 by norm_num); omega)

theorem ones_lor_next {m : Nat} : (2 ^ m - 1) ||| 2 ^ m = 2 ^ (m + 1) - 1 := by
  rw [Nat.lor_comm, lor_eq_add (2 ^ m) (2 ^ m - 1) (Nat.mod_self _)
    (by have := Nat.pos_pow_of_pos m (show 0 < 2 by norm_num); omega)]
  have := Nat.pos_pow_of_pos m (show 0 < 2 by norm_num)
  rw [pow_succ]
  omega

theorem val_lt (l : List Nat) (h : ∀ b ∈ l, b < 256) : val l < 256 ^ l.length := by
  induction l with
  | nil => simp [val]
  | cons b t ih =>
    have hb : b < 256 := h b (by simp)
    have ht : val t < 256 ^ t.length := ih (fun x hx => h x (by simp [hx]))
    have h2 : (b + 1) * 256 ^ t.length ≤ 256 * 256 ^ t.length :=
      Nat.mul_le_mul_right _ (by omega)
    calc val (b :: t) = b * 256 ^ t.length + val t := rfl
      _ < b * 256 ^ t.length + 256 ^ t.length := by omega
      _ = (b + 1) * 256 ^ t.length := by ring
      _ ≤ 256 * 256 ^ t.length := h2
      _ = 256 ^ (b :: t).length := by
          simp [List.length_cons, pow_succ]
          ring

theorem val_lt_pow128 {l : List Nat} (h : Bytes 16 l) : val l < 2 ^ 128 := by
  have := val_lt l h.2
  rw [h.1, pow256] at this
  exact this

theorem Cmp_val : ∀ (a b : List Nat), a.length = b.length →
    (∀ x ∈ a, x < 256) → (∀ x ∈ b, x < 256) →
    Cmp a b = if val a < val b then -1 else if val b < val a then 1 else 0 := by
  intro a
  induction a with
  | nil =>
    intro b hlen _ _
    have : b = [] := List.eq_nil_of_length_eq_zero hlen.symm
    subst this
    simp [Cmp, val]
  | cons x xs ih =>
    intro b hlen ha hb
    match b with
    | [] => simp at hlen
    | y :: ys =>
      have hlen2 : xs.length = ys.length := by simpa using hlen
      have hx : x < 256 := ha x (by simp)
      have hy : y < 256 := hb y (by simp)
      have hvx : val xs < 256 ^ xs.length := val_lt xs (fun u hu => ha u (by simp [hu]))
      have hvy : val ys < 256 ^ ys.length := val_lt ys (fun u hu => hb u (by simp [hu]))
      show Cmp (x :: xs) (y :: ys) = _
      have hvcons : val (x :: xs) = x * 256 ^ xs.length + val xs := rfl
      have hvcons2 : val (y :: ys) = y * 256 ^ ys.length + val ys := rfl
      by_cases hxy : x < y
      · have hlt : val (x :: xs) < val (y :: ys) := by
          rw [hvcons, hvcons2, ← hlen2]
          have h1 : (x + 1) * 256 ^ xs.length ≤ y * 256 ^ xs.length :=
            Nat.mul_le_mul_right _ (by omega)
          calc x * 256 ^ xs.length + val xs < (x + 1) * 256 ^ xs.length := by ring_nf; omega
            _ ≤ y * 256 ^ xs.length := h1
            _ ≤ y * 256 ^ xs.length + val ys := Nat.le_add_right _ _
        rw [if_pos hlt]
        simp [Cmp, hxy]
      · by_cases hyx : y < x
        · have hlt : val (y :: ys) < val (x :: xs) := by
            rw [hvcons, hvcons2, ← hlen2]
            have h1 : (y + 1) * 256 ^ xs.length ≤ x * 256 ^ xs.length :=
              Nat.mul_le_mul_right _ (by omega)
            calc y * 256 ^ xs.length + val ys < (y + 1) * 256 ^ xs.length := by
                  have : val ys < 256 ^ xs.length := by rw [hlen2]; exact hvy
                  ring_nf
                  omega
              _ ≤ x * 256 ^ xs.length := h1
              _ ≤ x * 256 ^ xs.length + val xs := Nat.le_add_right _ _
          rw [if_neg (by omega), if_pos hlt]
          simp [Cmp, hxy, hyx]
        · have hxe : x = y := by omega
          subst hxe
          have c1 : val (x :: xs) < val (x :: ys) ↔ val xs < val ys := by
            rw [hvcons, hvcons2, ← hlen2]
            omega
          have c2 : val (x :: ys) < val (x :: xs) ↔ val ys < val xs := by
            rw [hvcons, hvcons2, ← hlen2]
            omega
          have hrec : Cmp (x :: xs) (x :: ys) = Cmp xs ys := by
            simp [Cmp]
          rw [hrec, ih ys hlen2 (fun u hu => ha u (by simp [hu])) (fun u hu => hb u (by simp [hu]))]
          simp only [c1, c2]

theorem Cmp_zero_eq : ∀ (a b : List Nat), a.length = b.length → Cmp a b = 0 → a = b := by
  intro a
  induction a with
  | nil =>
    intro b hlen _
    exact (List.eq_nil_of_length_eq_zero hlen.symm).symm
  | cons x xs ih =>
    intro b hlen hc
    match b with
    | [] => simp at hlen
    | y :: ys =>
      have hlen2 : xs.length = ys.length := by simpa using hlen
      by_cases hxy : x < y
      · simp [Cmp, hxy] at hc
      · by_cases hyx : y < x
        · simp [Cmp, hxy, hyx] at hc
        · have hxe : x = y := by omega
          subst hxe
          have : Cmp xs ys = 0 := by simpa [Cmp] using hc
          rw [ih ys hlen2 this]

theorem Cmp_eq_one {a b : List Nat} (ha : Bytes 16 a) (hb : Bytes 16 b) :
    Cmp a b = 1 ↔ val b < val a := by
  rw [Cmp_val a b (ha.1.trans hb.1.symm) ha.2 hb.2]
  split_ifs with h1 h2 <;> norm_num <;> omega

theorem Cmp_ne_one {a b : List Nat} (ha : Bytes 16 a) (hb : Bytes 16 b) :
    ¬Cmp a b = 1 ↔ val a ≤ val b := by
  rw [Cmp_eq_one ha hb]
  omega

theorem Cmp_eq_zero_iff {a b : List Nat} (ha : Bytes 16 a) (hb : Bytes 16 b) :
    Cmp a b = 0 ↔ val a = val b := by
  constructor
  · intro h
    rw [Cmp_zero_eq a b (ha.1.trans hb.1.symm) h]
  · intro h
    rw [Cmp_val a b (ha.1.trans hb.1.symm) ha.2 hb.2]
    simp [h]

theorem Cmp_nonneg_iff {a b : List Nat} (ha : Bytes 16 a) (hb : Bytes 16 b) :
    0 ≤ Cmp a b ↔ val b ≤ val a := by
  rw [Cmp_val a b (ha.1.trans hb.1.symm) ha.2 hb.2]
  split_ifs with h1 h2 <;> norm_num <;> omega

theorem Cmp_le_zero_iff {a b : List Nat} (ha : Bytes 16 a) (hb : Bytes 16 b) :
    Cmp a b ≤ 0 ↔ val a ≤ val b := by
  rw [Cmp_val a b (ha.1.trans hb.1.symm) ha.2 hb.2]
  split_ifs with h1 h2 <;> norm_num <;> omega

theorem val_inj {a b : List Nat} (ha : Bytes 16 a) (hb : Bytes 16 b)
    (h : val a = val b) : a = b :=
  Cmp_zero_eq a b (ha.1.trans hb.1.symm) ((Cmp_eq_zero_iff ha hb).2 h)

theorem Add_val : ∀ (a b : List Nat), a.length = b.length →
    (∀ x ∈ a, x < 256) → (∀ x ∈ b, x < 256) →
    (Add a b).1.length = a.length ∧ (∀ x ∈ (Add a b).1, x < 256) ∧
    val (Add a b).1 = (val a + val b) % 256 ^ a.length ∧
    (Add a b).2 = (val a + val b) / 256 ^ a.length := by
  intro a
  induction a with
  | nil =>
    intro b hlen _ _
    have : b = [] := List.eq_nil_of_length_eq_zero hlen.symm
    subst this
    simp [Add, val]
  | cons x xs ih =>
    intro b hlen ha hb
    match b with
    | [] => simp at hlen
    | y :: ys =>
      have hlen2 : xs.length = ys.length := by simpa using hlen
      have hx : x < 256 := ha x (by simp)
      have hy : y < 256 := hb y (by simp)
      obtain ⟨ihlen, ihbytes, ihval, ihcarry⟩ :=
        ih ys hlen2 (fun u hu => ha u (by simp [hu])) (fun u hu => hb u (by simp [hu]))
      set B := (256 : Nat) ^ xs.length with hB
      have hBpos : 0 < B := Nat.pos_pow_of_pos _ (by norm_num)
      have hvx : val xs < B := val_lt xs (fun u hu => ha u (by simp [hu]))
      have hvy : val ys < B := by
        have := val_lt ys (fun u hu => hb u (by simp [hu]))
        rwa [← hlen2] at this
      set S := val xs + val ys with hS
      have hcarrybound : S / B ≤ 1 := by
        have h1 : S < B * 2 := by omega
        have := Nat.div_lt_of_lt_mul h1
        omega
      have hdm : B * (S / B) + S % B = S := Nat.div_add_mod S B
      have hmodlt : S % B < B := Nat.mod_lt _ hBpos
      have hvcons : val (x :: xs) = x * B + val xs := rfl
      have hvcons2 : val (y :: ys) = y * B + val ys := by
        show y * 256 ^ ys.length + val ys = y * B + val ys
        rw [hB, hlen2]
      have htot : val (x :: xs) + val (y :: ys) = (x + y + S / B) * B + S % B := by
        rw [hvcons, hvcons2]
        calc x * B + val xs + (y * B + val ys) = (x + y) * B + S := by rw [hS]; ring
          _ = (x + y) * B + (B * (S / B) + S % B) := by rw [hdm]
          _ = (x + y + S / B) * B + S % B := by ring
      have hlen256 : (256 : Nat) ^ (x :: xs).length = 256 * B := by
        simp [hB, pow_succ]
        ring
      show (Add (x :: xs) (y :: ys)).1.length = _ ∧ _
      have hunfold : Add (x :: xs) (y :: ys) =
          (let p := Add xs ys
           let v := x + y + p.2
           if v < 256 then (v :: p.1, 0) else (v % 256 :: p.1, 1)) := rfl
      rw [hunfold]
      simp only [ihcarry]
      set v := x + y + S / B with hv
      have hSdiv : (val xs + val ys) / B = S / B := rfl
      by_cases hvlt : v < 256
      · simp only [hSdiv, ← hv, if_pos hvlt]
        have hvallt : (x :: xs).length = xs.length + 1 := rfl
        refine ⟨by simp [ihlen], ?_, ?_, ?_⟩
        · intro u hu
          rcases List.mem_cons.1 hu with h | h
          · omega
          · exact ihbytes u h
        · have hvv : val (v :: (Add xs ys).1) = v * B + S % B := by
            show v * 256 ^ (Add xs ys).1.length + val (Add xs ys).1 = v * B + S % B
            rw [ihlen, ← hB, ihval]
          rw [hvv, htot, hlen256]
          have hlt : v * B + S % B < 256 * B := by
            have h1 : v * B + S % B < (v + 1) * B := by
              have : v * B + S % B < v * B + B := by omega
              calc v * B + S % B < v * B + B := this
                _ = (v + 1) * B := by ring
            have h2 : (v + 1) * B ≤ 256 * B := Nat.mul_le_mul_right _ (by omega)
            omega
          rw [Nat.mod_eq_of_lt hlt]
        · rw [htot, hlen256]
          have hlt : v * B + S % B < 256 * B := by
            have h1 : v * B + S % B < (v + 1) * B := by
              have : v * B + S % B < v * B + B := by omega
              calc v * B + S % B < v * B + B := this
                _ = (v + 1) * B := by ring
            have h2 : (v + 1) * B ≤ 256 * B := Nat.mul_le_mul_right _ (by omega)
            omega
          rw [Nat.div_eq_of_lt hlt]
      · simp only [hSdiv, ← hv, if_neg hvlt]
        have hv511 : v < 512 := by omega
        have hvmod : v % 256 = v - 256 := by omega
        have hrw : v * B + S % B = ((v - 256) * B + S % B) + 256 * B := by
          have : v * B = (v - 256) * B + 256 * B := by
            have : v = (v - 256) + 256 := by omega
            calc v * B = ((v - 256) + 256) * B := by rw [← this]
              _ = (v - 256) * B + 256 * B := by ring
          omega
        refine ⟨by simp [ihlen], ?_, ?_, ?_⟩
        · intro u hu
          rcases List.mem_cons.1 hu with h | h
          · have : v % 256 < 256 := Nat.mod_lt _ (by norm_num)
            omega
          · exact ihbytes u h
        · have hvv : val (v % 256 :: (Add xs ys).1) = (v - 256) * B + S % B := by
            show v % 256 * 256 ^ (Add xs ys).1.length + val (Add xs ys).1 = _
            rw [ihlen, ← hB, ihval, hvmod]
          rw [hvv, htot, hlen256, hrw, Nat.add_mod_right]
          have hlt : (v - 256) * B + S % B < 256 * B := by
            have h1 : (v - 256) * B + S % B < (v - 256 + 1) * B := by
              have : (v - 256) * B + S % B < (v - 256) * B + B := by omega
              calc (v - 256) * B + S % B < (v - 256) * B + B := this
                _ = (v - 256 + 1) * B := by ring
            have h2 : (v - 256 + 1) * B ≤ 256 * B := Nat.mul_le_mul_right _ (by omega)
            omega
          rw [Nat.mod_eq_of_lt hlt]
        · rw [htot, hlen256, hrw, Nat.add_div_right _ (by omega)]
          have hlt : (v - 256) * B + S % B < 256 * B := by
            have h1 : (v - 256) * B + S % B < (v - 256 + 1) * B := by
              have : (v - 256) * B + S % B < (v - 256) * B + B := by omega
              calc (v - 256) * B + S % B < (v - 256) * B + B := this
                _ = (v - 256 + 1) * B := by ring
            have h2 : (v - 256 + 1) * B ≤ 256 * B := Nat.mul_le_mul_right _ (by omega)
            omega
          rw [Nat.div_eq_of_lt hlt]

theorem getD_testBit : ∀ (l : List Nat), (∀ x ∈ l, x < 256) → ∀ n : Nat,
    (val l).testBit n =
      if l.length ≤ n / 8 then false
      else (l.getD (l.length - 1 - n / 8) 0).testBit (n % 8) := by
  intro l
  induction l with
  | nil =>
    intro _ n
    simp [val]
  | cons b t ih =>
    intro hb n
    have hbb : b < 256 := hb b (by simp)
    have hvt : val t < 2 ^ (8 * t.length) := by
      have := val_lt t (fun u hu => hb u (by simp [hu]))
      rwa [pow256] at this
    have hsplit : (val (b :: t)).testBit n =
        if n < 8 * t.length then (val t).testBit n else b.testBit (n - 8 * t.length) := by
      show (b * 256 ^ t.length + val t).testBit n = _
      rw [pow256]
      exact tb_split b n hvt
    rw [hsplit]
    by_cases hcase : n / 8 < t.length
    · have hn8 : n < 8 * t.length := by omega
      rw [if_pos hn8, ih (fun u hu => hb u (by simp [hu])) n]
      have hguard : ¬ t.length ≤ n / 8 := by omega
      have hguard2 : ¬ (b :: t).length ≤ n / 8 := by
        simp only [List.length_cons]
        omega
      rw [if_neg hguard, if_neg hguard2]
      have hidx : (b :: t).length - 1 - n / 8 = (t.length - 1 - n / 8) + 1 := by
        simp only [List.length_cons]
        omega
      rw [hidx]
      rfl
    · by_cases heq : n / 8 = t.length
      · have hn8 : ¬ n < 8 * t.length := by
          have := Nat.div_mul_le_self n 8
          omega
        rw [if_neg hn8]
        have hguard2 : ¬ (b :: t).length ≤ n / 8 := by
          simp only [List.length_cons]
          omega
        rw [if_neg hguard2]
        have hidx : (b :: t).length - 1 - n / 8 = 0 := by
          simp only [List.length_cons]
          omega
        rw [hidx]
        have hnm : n - 8 * t.length = n % 8 := by
          have := Nat.div_add_mod n 8
          omega
        rw [hnm]
        rfl
      · have hgt : t.length < n / 8 := by omega
        have hn8 : ¬ n < 8 * t.length := by
          have h1 : 8 * (t.length + 1) ≤ 8 * (n / 8) := by omega
          have := Nat.div_mul_le_self n 8
          omega
        rw [if_neg hn8]
        have hguard2 : (b :: t).length ≤ n / 8 := by
          simp only [List.length_cons]
          omega
        rw [if_pos hguard2]
        apply Nat.testBit_eq_false_of_lt
        have h8 : 8 ≤ n - 8 * t.length := by
          have h1 : 8 * (t.length + 1) ≤ 8 * (n / 8) := by omega
          have := Nat.div_mul_le_self n 8
          omega
        calc b < 256 := hbb
          _ = 2 ^ 8 := by norm_num
          _ ≤ 2 ^ (n - 8 * t.length) := Nat.pow_le_pow_right (by norm_num) h8

theorem GetBit_val {l : List Nat} (h : Bytes 16 l) (n : Nat) :
    GetBit l n = (val l).testBit n := by
  by_cases hc : 15 < n / 8
  · rw [GetBit, if_pos hc, getD_testBit l h.2 n, if_pos (by rw [h.1]; omega)]
  · rw [GetBit, if_neg hc, getD_testBit l h.2 n, if_neg (by rw [h.1]; omega)]
    have hidx : l.length - 1 - n / 8 = 15 - n / 8 := by
      rw [h.1]
    rw [hidx]

theorem GetBit_oob (a : List Nat) (n : Nat) (h : 128 ≤ n) : GetBit a n = false := by
  rw [GetBit, if_pos]
  omega

theorem SetBit_oob (a : List Nat) (n : Nat) (b : Bool) (h : 128 ≤ n) : SetBit a n b = a := by
  rw [SetBit, if_pos]
  omega

theorem set_val_lor : ∀ (l : List Nat), (∀ x ∈ l, x < 256) → ∀ n : Nat, n / 8 < l.length →
    (∀ x ∈ l.set (l.length - 1 - n / 8) ((l.getD (l.length - 1 - n / 8) 0) ||| (1 <<< (n % 8))), x < 256) ∧
    val (l.set (l.length - 1 - n / 8) ((l.getD (l.length - 1 - n / 8) 0) ||| (1 <<< (n % 8)))) =
      val l ||| 2 ^ n := by
  intro l
  induction l with
  | nil =>
    intro _ n hn
    simp at hn
  | cons b t ih =>
    intro hb n hn
    have hbb : b < 256 := hb b (by simp)
    have hvt : val t < 2 ^ (8 * t.length) := by
      have := val_lt t (fun u hu => hb u (by simp [hu]))
      rwa [pow256] at this
    have hshift : (1 : Nat) <<< (n % 8) = 2 ^ (n % 8) := Nat.one_shiftLeft _
    have hm8 : 2 ^ (n % 8) < 256 := by
      have h1 : n % 8 < 8 := Nat.mod_lt _ (by norm_num)
      calc 2 ^ (n % 8) < 2 ^ 8 := Nat.pow_lt_pow_right (by norm_num) h1
        _ = 256 := by norm_num
    by_cases heq : n / 8 = t.length
    · have hidx : (b :: t).length - 1 - n / 8 = 0 := by
        simp only [List.length_cons]
        omega
      rw [hidx]
      have hget : (b :: t).getD 0 0 = b := rfl
      rw [hget]
      have hset : (b :: t).set 0 (b ||| 1 <<< (n % 8)) = (b ||| 1 <<< (n % 8)) :: t := rfl
      rw [hset]
      have hbor : b ||| 1 <<< (n % 8) < 256 := by
        rw [hshift]
        have : (256 : Nat) = 2 ^ 8 := by norm_num
        rw [this]
        exact Nat.or_lt_two_pow (by omega) (by rw [← this]; exact hm8)
      constructor
      · intro u hu
        rcases List.mem_cons.1 hu with h | h
        · omega
        · exact hb u (by simp [h])
      · have hv1 : val ((b ||| 1 <<< (n % 8)) :: t) = (b ||| 2 ^ (n % 8)) * 2 ^ (8 * t.length) + val t := by
          show (b ||| 1 <<< (n % 8)) * 256 ^ t.length + val t = _
          rw [pow256, hshift]
        have hv2 : val (b :: t) = b * 2 ^ (8 * t.length) + val t := by
          show b * 256 ^ t.length + val t = _
          rw [pow256]
        rw [hv1, hv2]
        have h2n : (2 : Nat) ^ n = 2 ^ (n % 8) * 2 ^ (8 * t.length) + 0 := by
          rw [Nat.add_zero, ← pow_add]
          congr 1
          omega
        conv_rhs => rw [h2n]
        rw [lor_base b (2 ^ (n % 8)) hvt (Nat.pos_pow_of_pos _ (by norm_num)), Nat.or_zero]
    · have hlt : n / 8 < t.length := by
        simp only [List.length_cons] at hn
        omega
      have hidx : (b :: t).length - 1 - n / 8 = (t.length - 1 - n / 8) + 1 := by
        simp only [List.length_cons]
        omega
      rw [hidx]
      have hget : (b :: t).getD (t.length - 1 - n / 8 + 1) 0 = t.getD (t.length - 1 - n / 8) 0 := rfl
      rw [hget]
      have hset : (b :: t).set (t.length - 1 - n / 8 + 1) (t.getD (t.length - 1 - n / 8) 0 ||| 1 <<< (n % 8)) =
          b :: t.set (t.length - 1 - n / 8) (t.getD (t.length - 1 - n / 8) 0 ||| 1 <<< (n % 8)) := rfl
      rw [hset]
      obtain ⟨ihb, ihv⟩ := ih (fun u hu => hb u (by simp [hu])) n hlt
      constructor
      · intro u hu
        rcases List.mem_cons.1 hu with h | h
        · omega
        · exact ihb u h
      · set t2 := t.set (t.length - 1 - n / 8) (t.getD (t.length - 1 - n / 8) 0 ||| 1 <<< (n % 8)) with ht2
        have hlen2 : t2.length = t.length := by
          rw [ht2, List.length_set]
        have hv1 : val (b :: t2) = b * 2 ^ (8 * t.length) + val t2 := by
          show b * 256 ^ t2.length + val t2 = _
          rw [hlen2, pow256]
        have hv2 : val (b :: t) = b * 2 ^ (8 * t.length) + val t := by
          show b * 256 ^ t.length + val t = _
          rw [pow256]
        rw [hv1, hv2, ihv]
        have hn8 : n < 8 * t.length := by omega
        have h2nlt : (2 : Nat) ^ n < 2 ^ (8 * t.length) :=
          Nat.pow_lt_pow_right (by norm_num) hn8
        have h2n : (2 : Nat) ^ n = 0 * 2 ^ (8 * t.length) + 2 ^ n := by ring
        conv_rhs => rw [h2n]
        rw [lor_base b 0 hvt h2nlt, Nat.or_zero]

theorem SetBit_val {l : List Nat} (h : Bytes 16 l) (n : Nat) (hn : n < 128) :
    Bytes 16 (SetBit l n true) ∧ val (SetBit l n true) = val l ||| 2 ^ n := by
  have hdiv : n / 8 < l.length := by
    rw [h.1]
    omega
  have hguard : ¬ 15 < n / 8 := by
    rw [h.1] at hdiv
    omega
  obtain ⟨hbytes, hval⟩ := set_val_lor l h.2 n hdiv
  have hidx : 15 - n / 8 = l.length - 1 - n / 8 := by
    rw [h.1]
  have hrw : SetBit l n true =
      l.set (l.length - 1 - n / 8) ((l.getD (l.length - 1 - n / 8) 0) ||| (1 <<< (n % 8))) := by
    rw [SetBit, if_neg hguard]
    simp [hidx]
  rw [hrw]
  refine ⟨⟨?_, hbytes⟩, hval⟩
  rw [List.length_set, h.1]

theorem OrBytes_val : ∀ (a b : List Nat), a.length = b.length →
    (∀ x ∈ a, x < 256) → (∀ x ∈ b, x < 256) →
    (OrBytes a b).length = a.length ∧ (∀ x ∈ OrBytes a b, x < 256) ∧
    val (OrBytes a b) = val a ||| val b := by
  intro a
  induction a with
  | nil =>
    intro b hlen _ _
    have : b = [] := List.eq_nil_of_length_eq_zero hlen.symm
    subst this
    simp [OrBytes, val]
  | cons x xs ih =>
    intro b hlen ha hb
    match b with
    | [] => simp at hlen
    | y :: ys =>
      have hlen2 : xs.length = ys.length := by simpa using hlen
      have hx : x < 256 := ha x (by simp)
      have hy : y < 256 := hb y (by simp)
      obtain ⟨ihlen, ihbytes, ihval⟩ :=
        ih ys hlen2 (fun u hu => ha u (by simp [hu])) (fun u hu => hb u (by simp [hu]))
      have hvx : val xs < 2 ^ (8 * xs.length) := by
        have := val_lt xs (fun u hu => ha u (by simp [hu]))
        rwa [pow256] at this
      have hvy : val ys < 2 ^ (8 * xs.length) := by
        have := val_lt ys (fun u hu => hb u (by simp [hu]))
        rw [← hlen2] at this
        rwa [pow256] at this
      have hunf : OrBytes (x :: xs) (y :: ys) = (x ||| y) :: OrBytes xs ys := rfl
      rw [hunf]
      refine ⟨by simp [ihlen], ?_, ?_⟩
      · intro u hu
        rcases List.mem_cons.1 hu with h | h
        · have : x ||| y < 256 := by
            have h256 : (256 : Nat) = 2 ^ 8 := by norm_num
            rw [h256]
            exact Nat.or_lt_two_pow (by omega) (by omega)
          omega
        · exact ihbytes u h
      · have hv1 : val ((x ||| y) :: OrBytes xs ys) = (x ||| y) * 2 ^ (8 * xs.length) + val (OrBytes xs ys) := by
          show (x ||| y) * 256 ^ (OrBytes xs ys).length + val (OrBytes xs ys) = _
          rw [ihlen, pow256]
        have hv2 : val (x :: xs) = x * 2 ^ (8 * xs.length) + val xs := by
          show x * 256 ^ xs.length + val xs = _
          rw [pow256]
        have hv3 : val (y :: ys) = y * 2 ^ (8 * xs.length) + val ys := by
          show y * 256 ^ ys.length + val ys = _
          rw [← hlen2, pow256]
        rw [hv1, hv2, hv3, ihval, lor_base x y hvx hvy]

theorem byteRep_bytes : ∀ (w n : Nat), Bytes w (byteRep w n) := by
  intro w
  induction w with
  | zero =>
    intro n
    exact ⟨rfl, by simp [byteRep]⟩
  | succ w ih =>
    intro n
    obtain ⟨ihlen, ihbytes⟩ := ih n
    refine ⟨by simp [byteRep, ihlen], ?_⟩
    intro u hu
    rcases List.mem_cons.1 hu with h | h
    · have : n / 256 ^ w % 256 < 256 := Nat.mod_lt _ (by norm_num)
      omega
    · exact ihbytes u h

theorem byteRep_val : ∀ (w n : Nat), val (byteRep w n) = n % 256 ^ w := by
  intro w
  induction w with
  | zero =>
    intro n
    simp [byteRep, val, Nat.mod_one]
  | succ w ih =>
    intro n
    have hlen : (byteRep w n).length = w := (byteRep_bytes w n).1
    have hv : val (byteRep (w + 1) n) = (n / 256 ^ w % 256) * 256 ^ w + val (byteRep w n) := by
      show (n / 256 ^ w % 256) * 256 ^ (byteRep w n).length + val (byteRep w n) = _
      rw [hlen]
    rw [hv, ih n]
    have hmul : (256 : Nat) ^ (w + 1) = 256 ^ w * 256 := pow_succ 256 w
    rw [hmul, Nat.mod_mul]
    ring

theorem byteRep_of_val {l : List Nat} (h : Bytes 16 l) : byteRep 16 (val l) = l := by
  apply val_inj (byteRep_bytes 16 (val l)) h
  rw [byteRep_val]
  exact Nat.mod_eq_of_lt (by have := val_lt l h.2; rwa [h.1] at this)

theorem bytes_zero16 : Bytes 16 zero16 := by decide

theorem bytes_max16 : Bytes 16 max16 := by decide

theorem bytes_one16 : Bytes 16 one16 := by decide

theorem val_zero16 : val zero16 = 0 := by decide

theorem val_one16 : val one16 = 1 := by decide

theorem val_max16 : val max16 = 2 ^ 128 - 1 := by decide

theorem pow_le_128 {k : Nat} (h : 2 ^ k ≤ 2 ^ 128) : k ≤ 128 := by
  by_contra hk
  have : (2 : Nat) ^ 128 < 2 ^ k := Nat.pow_lt_pow_right (by norm_num) (by omega)
  omega

theorem innerScan_stuck {lo hi mask : List Nat} (hlo : Bytes 16 lo) (hhi : Bytes 16 hi)
    (hmask : Bytes 16 mask) (hlo0 : val lo = 0) (hhimax : val hi = 2 ^ 128 - 1)
    (hmaskv : val mask = 2 ^ 128 - 1) :
    ∀ (fuel j : Nat), 128 ≤ j → innerScan lo hi mask j fuel = none := by
  intro fuel
  induction fuel with
  | zero =>
    intro j _
    rfl
  | succ f ih =>
    intro j hj
    have hget : GetBit lo j = false := by
      rw [GetBit_val hlo, hlo0]
      simp
    have hset : SetBit mask j true = mask := SetBit_oob mask j true hj
    have hor := OrBytes_val lo mask (hlo.1.trans hmask.1.symm) hlo.2 hmask.2
    have hbN : Bytes 16 (OrBytes lo mask) := ⟨hor.1.trans hlo.1, hor.2.1⟩
    have hcmp : ¬ Cmp (OrBytes lo mask) hi = 1 := by
      rw [Cmp_eq_one hbN hhi, hor.2.2, hlo0, Nat.zero_or, hhimax]
      omega
    show innerScan lo hi mask j (f + 1) = none
    rw [innerScan, if_neg (by rw [hget]; simp), hset, if_neg hcmp]
    exact ih (j + 1) (by omega)

theorem innerScan_post {lo hi : List Nat} (hlo : Bytes 16 lo) (hhi : Bytes 16 hi) :
    ∀ (fuel j k : Nat) (mask : List Nat), Bytes 16 mask → val mask = 2 ^ j - 1 →
    val lo % 2 ^ j = 0 → val lo + 2 ^ j - 1 ≤ val hi →
    innerScan lo hi mask j fuel = some k →
    j ≤ k ∧ k ≤ 128 ∧ val lo % 2 ^ k = 0 ∧ val lo + 2 ^ k - 1 ≤ val hi ∧
      ((val lo).testBit k = true ∨ val hi < val lo + 2 ^ (k + 1) - 1) := by
  intro fuel
  induction fuel with
  | zero =>
    intro j k mask _ _ _ _ hrun
    exact absurd hrun (by simp [innerScan])
  | succ f ih =>
    intro j k mask hmask hmaskv halign hbound hrun
    have hhiv : val hi < 2 ^ 128 := val_lt_pow128 hhi
    have hklow : 2 ^ j ≤ 2 ^ 128 := by
      have h1 : 2 ^ j - 1 ≤ val hi := by omega
      have h2 : (0 : Nat) < 2 ^ j := Nat.pos_pow_of_pos _ (by norm_num)
      omega
    have hj128 : j ≤ 128 := pow_le_128 hklow
    rw [innerScan] at hrun
    by_cases hget : GetBit lo j
    · rw [if_pos hget] at hrun
      have hk : k = j := by
        have := Option.some.inj hrun
        omega
      subst hk
      refine ⟨le_refl _, hj128, halign, hbound, Or.inl ?_⟩
      rw [← GetBit_val hlo]
      exact hget
    · rw [if_neg hget] at hrun
      have htb : (val lo).testBit j = false := by
        rw [← GetBit_val hlo]
        exact Bool.not_eq_true _ ▸ (by simpa using hget)
      by_cases hj : j < 128
      · have hsv := SetBit_val hmask j hj
        have hmask2v : val (SetBit mask j true) = 2 ^ (j + 1) - 1 := by
          rw [hsv.2, hmaskv, ones_lor_next]
        have halign2 : val lo % 2 ^ (j + 1) = 0 := aligned_succ halign htb
        have hor := OrBytes_val lo (SetBit mask j true) (hlo.1.trans hsv.1.1.symm) hlo.2 hsv.1.2
        have hbN : Bytes 16 (OrBytes lo (SetBit mask j true)) := ⟨hor.1.trans hlo.1, hor.2.1⟩
        have hNv : val (OrBytes lo (SetBit mask j true)) = val lo + (2 ^ (j + 1) - 1) := by
          rw [hor.2.2, hmask2v]
          exact aligned_lor_ones halign2
        by_cases hcmp : Cmp (OrBytes lo (SetBit mask j true)) hi = 1
        · rw [if_pos hcmp] at hrun
          have hk : k = j := by
            have := Option.some.inj hrun
            omega
          subst hk
          have hgt : val hi < val lo + (2 ^ (k + 1) - 1) := by
            rw [← hNv]
            exact (Cmp_eq_one hbN hhi).1 hcmp
          have h2j : (0 : Nat) < 2 ^ (k + 1) := Nat.pos_pow_of_pos _ (by norm_num)
          exact ⟨le_refl _, hj128, halign, hbound, Or.inr (by omega)⟩
        · rw [if_neg hcmp] at hrun
          have hle : val lo + (2 ^ (j + 1) - 1) ≤ val hi := by
            rw [← hNv]
            exact le_of_not_lt (fun hc => hcmp ((Cmp_eq_one hbN hhi).2 hc))
          have h2j : (0 : Nat) < 2 ^ (j + 1) := Nat.pos_pow_of_pos _ (by norm_num)
          have hpost := ih (j + 1) k (SetBit mask j true) hsv.1 hmask2v halign2 (by omega) hrun
          exact ⟨by omega, hpost.2.1, hpost.2.2.1, hpost.2.2.2.1, hpost.2.2.2.2⟩
      · have hj128e : j = 128 := by omega
        subst hj128e
        have hlo0 : val lo = 0 := by
          have := val_lt_pow128 hlo
          omega
        have hhimax : val hi = 2 ^ 128 - 1 := by
          have h2 : (0 : Nat) < 2 ^ 128 := Nat.pos_pow_of_pos _ (by norm_num)
          omega
        have hset : SetBit mask 128 true = mask := SetBit_oob mask 128 true (by omega)
        rw [hset] at hrun
        have hor := OrBytes_val lo mask (hlo.1.trans hmask.1.symm) hlo.2 hmask.2
        have hbN : Bytes 16 (OrBytes lo mask) := ⟨hor.1.trans hlo.1, hor.2.1⟩
        have hcmp : ¬ Cmp (OrBytes lo mask) hi = 1 := by
          rw [Cmp_eq_one hbN hhi, hor.2.2, hlo0, Nat.zero_or, hmaskv, hhimax]
          omega
        rw [if_neg hcmp] at hrun
        have := innerScan_stuck hlo hhi hmask hlo0 hhimax (by rw [hmaskv]) f 129 (by omega)
        rw [this] at hrun
        exact absurd hrun (by simp)

set_option maxRecDepth 40000 in
theorem innerScan_zero_max : innerScan zero16 max16 zero16 0 200 = none := by decide

theorem splitFuel_zero_max : ∀ fuel, splitFuel zero16 max16 fuel = none := by
  intro fuel
  cases fuel with
  | zero => rfl
  | succ f =>
    rw [splitFuel, if_neg (by decide), innerScan_zero_max]

theorem splitFuel_diverge {lo hi : List Nat} (hlo : Bytes 16 lo) (hhi : Bytes 16 hi)
    (hlo0 : val lo = 0) (hhimax : val hi = 2 ^ 128 - 1) :
    ∀ fuel, splitFuel lo hi fuel = none := by
  have h1 : lo = zero16 := val_inj hlo bytes_zero16 (by rw [hlo0, val_zero16])
  have h2 : hi = max16 := val_inj hhi bytes_max16 (by rw [hhimax, val_max16])
  subst h1
  subst h2
  exact splitFuel_zero_max

theorem splitFuel_post {hi : List Nat} (hhi : Bytes 16 hi) :
    ∀ (fuel : Nat) (lo : List Nat) (l : List Pfx), Bytes 16 lo →
    splitFuel lo hi fuel = some l → Tiles (val lo) (val hi) l := by
  intro fuel
  induction fuel with
  | zero =>
    intro lo l _ hrun
    exact absurd hrun (by simp [splitFuel])
  | succ f ih =>
    intro lo l hlo hrun
    rw [splitFuel] at hrun
    by_cases hcmp : Cmp lo hi = 1
    · rw [if_pos hcmp] at hrun
      have hl : l = [] := (Option.some.inj hrun).symm
      subst hl
      show val hi < val lo
      exact (Cmp_eq_one hlo hhi).1 hcmp
    · rw [if_neg hcmp] at hrun
      have hle : val lo ≤ val hi := (Cmp_ne_one hlo hhi).1 hcmp
      match hscan : innerScan lo hi zero16 0 200 with
      | none =>
        rw [hscan] at hrun
        exact absurd hrun (by simp)
      | some k =>
        rw [hscan] at hrun
        dsimp only at hrun
        have hpost := innerScan_post hlo hhi 200 0 k zero16 bytes_zero16
          (by rw [val_zero16]; norm_num) (by omega) (by simpa using hle) hscan
        obtain ⟨-, hk128, halign, hbound, hmaxl⟩ := hpost
        have hhiv : val hi < 2 ^ 128 := val_lt_pow128 hhi
        have h2k : (0 : Nat) < 2 ^ k := Nat.pos_pow_of_pos _ (by norm_num)
        have htmp : Bytes 16 (SetBit zero16 k true) ∧
            val (SetBit zero16 k true) = if k < 128 then 2 ^ k else 0 := by
          by_cases hk : k < 128
          · have := SetBit_val bytes_zero16 k hk
            rw [if_pos hk]
            refine ⟨this.1, ?_⟩
            rw [this.2, val_zero16, Nat.zero_or]
          · rw [if_neg hk, SetBit_oob zero16 k true (by omega)]
            exact ⟨bytes_zero16, val_zero16⟩
        have hadd := Add_val lo (SetBit zero16 k true) (hlo.1.trans htmp.1.1.symm) hlo.2 htmp.1.2
        have hlo2 : Bytes 16 (Add lo (SetBit zero16 k true)).1 :=
          ⟨hadd.1.trans hlo.1, hadd.2.1⟩
        match hrec : splitFuel (Add lo (SetBit zero16 k true)).1 hi f with
        | none =>
          rw [hrec] at hrun
          exact absurd hrun (by simp)
        | some rest =>
          rw [hrec] at hrun
          have hl : l = emit lo k :: rest := (Option.some.inj hrun).symm
          subst hl
          by_cases hwrap : val lo + 2 ^ k < 2 ^ 128
          · have hk127 : k < 128 := by
              by_contra hc
              have hke : k = 128 := by omega
              subst hke
              have : val lo = 0 := by
                have := val_lt_pow128 hlo
                omega
              omega
            have hlo2v : val (Add lo (SetBit zero16 k true)).1 = val lo + 2 ^ k := by
              rw [hadd.2.2.1, htmp.2, if_pos hk127, hlo.1, pow256]
              exact Nat.mod_eq_of_lt hwrap
            have htiles := ih _ rest hlo2 hrec
            rw [hlo2v] at htiles
            show Tiles (val lo) (val hi) (emit lo k :: rest)
            refine ⟨k, hk128, ?_, halign, hbound, hmaxl, htiles⟩
            rw [byteRep_of_val hlo]
          · have hhimax : val hi = 2 ^ 128 - 1 := by omega
            have hlo2v : val (Add lo (SetBit zero16 k true)).1 = 0 := by
              by_cases hk : k < 128
              · rw [hadd.2.2.1, htmp.2, if_pos hk, hlo.1, pow256]
                have heq : val lo + 2 ^ k = 2 ^ 128 := by
                  have h1 : val lo + 2 ^ k - 1 ≤ val hi := hbound
                  omega
                rw [heq, Nat.mod_self]
              · have hke : k = 128 := by omega
                subst hke
                have hlo0 : val lo = 0 := by
                  have := val_lt_pow128 hlo
                  omega
                rw [hadd.2.2.1, htmp.2, if_neg hk, hlo0, hlo.1, pow256]
                norm_num
            have := splitFuel_diverge hlo2 hhi hlo2v hhimax f
            rw [this] at hrec
            exact absurd hrec (by simp)

theorem innerScan_term {lo hi : List Nat} (hlo : Bytes 16 lo) (hhi : Bytes 16 hi)
    (hmax : val hi < 2 ^ 128 - 1) :
    ∀ (fuel j : Nat) (mask : List Nat), Bytes 16 mask → val mask = 2 ^ j - 1 →
    val lo % 2 ^ j = 0 → val lo + 2 ^ j - 1 ≤ val hi → 129 - j ≤ fuel →
    ∃ k, innerScan lo hi mask j fuel = some k := by
  intro fuel
  induction fuel with
  | zero =>
    intro j mask _ _ _ hbound hfuel
    exfalso
    have h2k : (0 : Nat) < 2 ^ j := Nat.pos_pow_of_pos _ (by norm_num)
    have hj : 2 ^ j < 2 ^ 128 := by omega
    have : j < 128 := by
      by_contra hc
      have : (2 : Nat) ^ 128 ≤ 2 ^ j := Nat.pow_le_pow_right (by norm_num) (by omega)
      omega
    omega
  | succ f ih =>
    intro j mask hmask hmaskv halign hbound hfuel
    have h2k : (0 : Nat) < 2 ^ j := Nat.pos_pow_of_pos _ (by norm_num)
    have hj : j < 128 := by
      by_contra hc
      have : (2 : Nat) ^ 128 ≤ 2 ^ j := Nat.pow_le_pow_right (by norm_num) (by omega)
      omega
    rw [innerScan]
    by_cases hget : GetBit lo j
    · rw [if_pos hget]
      exact ⟨j, rfl⟩
    · rw [if_neg hget]
      have htb : (val lo).testBit j = false := by
        rw [← GetBit_val hlo]
        exact Bool.not_eq_true _ ▸ (by simpa using hget)
      have hsv := SetBit_val hmask j hj
      have hmask2v : val (SetBit mask j true) = 2 ^ (j + 1) - 1 := by
        rw [hsv.2, hmaskv, ones_lor_next]
      have halign2 : val lo % 2 ^ (j + 1) = 0 := aligned_succ halign htb
      by_cases hcmp : Cmp (OrBytes lo (SetBit mask j true)) hi = 1
      · rw [if_pos hcmp]
        exact ⟨j, rfl⟩
      · rw [if_neg hcmp]
        have hor := OrBytes_val lo (SetBit mask j true) (hlo.1.trans hsv.1.1.symm) hlo.2 hsv.1.2
        have hbN : Bytes 16 (OrBytes lo (SetBit mask j true)) := ⟨hor.1.trans hlo.1, hor.2.1⟩
        have hNv : val (OrBytes lo (SetBit mask j true)) = val lo + (2 ^ (j + 1) - 1) := by
          rw [hor.2.2, hmask2v]
          exact aligned_lor_ones halign2
        have hle : val lo + (2 ^ (j + 1) - 1) ≤ val hi := by
          rw [← hNv]
          exact le_of_not_lt (fun hc => hcmp ((Cmp_eq_one hbN hhi).2 hc))
        have h2j : (0 : Nat) < 2 ^ (j + 1) := Nat.pos_pow_of_pos _ (by norm_num)
        exact ih (j + 1) (SetBit mask j true) hsv.1 hmask2v halign2 (by omega) (by omega)

theorem splitFuel_term {hi : List Nat} (hhi : Bytes 16 hi) (hmax : val hi < 2 ^ 128 - 1) :
    ∀ (fuel : Nat) (lo : List Nat), Bytes 16 lo → val hi + 1 - val lo + 1 ≤ fuel →
    ∃ l, splitFuel lo hi fuel = some l := by
  intro fuel
  induction fuel with
  | zero =>
    intro lo _ hfuel
    omega
  | succ f ih =>
    intro lo hlo hfuel
    rw [splitFuel]
    by_cases hcmp : Cmp lo hi = 1
    · rw [if_pos hcmp]
      exact ⟨[], rfl⟩
    · rw [if_neg hcmp]
      have hle : val lo ≤ val hi := (Cmp_ne_one hlo hhi).1 hcmp
      obtain ⟨k, hscan⟩ := innerScan_term hlo hhi hmax 200 0 zero16 bytes_zero16
        (by rw [val_zero16]; norm_num) (by omega) (by simpa using hle) (by omega)
      rw [hscan]
      have hpost := innerScan_post hlo hhi 200 0 k zero16 bytes_zero16
        (by rw [val_zero16]; norm_num) (by omega) (by simpa using hle) hscan
      obtain ⟨-, hk128, halign, hbound, -⟩ := hpost
      have h2k : (0 : Nat) < 2 ^ k := Nat.pos_pow_of_pos _ (by norm_num)
      have hk127 : k < 128 := by
        by_contra hc
        have : (2 : Nat) ^ 128 ≤ 2 ^ k := Nat.pow_le_pow_right (by norm_num) (by omega)
        have := val_lt_pow128 hlo
        omega
      have hsv := SetBit_val bytes_zero16 k hk127
      have htmpv : val (SetBit zero16 k true) = 2 ^ k := by
        rw [hsv.2, val_zero16, Nat.zero_or]
      have hadd := Add_val lo (SetBit zero16 k true) (hlo.1.trans hsv.1.1.symm) hlo.2 hsv.1.2
      have hlo2 : Bytes 16 (Add lo (SetBit zero16 k true)).1 := ⟨hadd.1.trans hlo.1, hadd.2.1⟩
      have hnowrap : val lo + 2 ^ k < 2 ^ 128 := by omega
      have hlo2v : val (Add lo (SetBit zero16 k true)).1 = val lo + 2 ^ k := by
        rw [hadd.2.2.1, htmpv, hlo.1, pow256]
        exact Nat.mod_eq_of_lt hnowrap
      obtain ⟨rest, hrest⟩ := ih (Add lo (SetBit zero16 k true)).1 hlo2 (by rw [hlo2v]; omega)
      dsimp only
      rw [hrest]
      exact ⟨emit lo k :: rest, rfl⟩

theorem pattern_testBit32 {a : Nat} (hpat : mappedPattern (byteRep 16 a) = true) :
    a.testBit 32 = true := by
  have h1 : ((byteRep 16 a).take 12).getD 11 0 = a / 256 ^ 4 % 256 := rfl
  have h2 : (byteRep 16 a).take 12 = [0, 0, 0, 0, 0, 0, 0, 0, 0, 0, 255, 255] :=
    of_decide_eq_true (by rwa [mappedPattern] at hpat)
  have h3 : a / 256 ^ 4 % 256 = 255 := by
    rw [← h1, h2]
    rfl
  rw [Nat.testBit_to_div_mod]
  have h4 : (2 : Nat) ^ 32 = 256 ^ 4 := by norm_num
  rw [h4]
  have h5 : a / 256 ^ 4 % 2 = 1 := by
    have := Nat.mod_mod_of_dvd (a / 256 ^ 4) (show (2 : Nat) ∣ 256 by norm_num)
    omega
  simp only [decide_eq_true_eq]
  exact h5

theorem pattern_k_le_32 {a k : Nat} (hpat : mappedPattern (byteRep 16 a) = true)
    (halign : a % 2 ^ k = 0) : k ≤ 32 := by
  by_contra hc
  have h32 := pattern_testBit32 hpat
  have := testBit_false_of_aligned halign (show 32 < k by omega)
  rw [this] at h32
  exact absurd h32 (by simp)

theorem emit_eq4 {bs : List Nat} {k : Nat} (hpat : mappedPattern bs = true) (hk : k ≤ 32) :
    emit bs k = { addr := { fam := AFam.v4, bs := bs }, bits := (32 : Int) - (k : Int) } := by
  have h46 : NAddr.is4In6 (AddrFrom16 bs) = true :=
    (show NAddr.is4In6 (AddrFrom16 bs) = mappedPattern bs from rfl).trans hpat
  have hun : NAddr.unmap (AddrFrom16 bs) = { fam := AFam.v4, bs := bs } := by
    have h0 : NAddr.unmap (AddrFrom16 bs) =
        if NAddr.is4In6 (AddrFrom16 bs) = true then
          { fam := AFam.v4, bs := bs } else AddrFrom16 bs := rfl
    rw [h0, if_pos h46]
  have h1 : emit bs k =
      if NAddr.is4In6 (AddrFrom16 bs) then
        PrefixFrom (NAddr.unmap (AddrFrom16 bs)) (128 - (k : Int) - 96)
      else PrefixFrom (AddrFrom16 bs) (128 - (k : Int)) := rfl
  rw [h1, if_pos h46, hun, PrefixFrom, if_neg]
  · have h2 : (128 : Int) - (k : Int) - 96 = 32 - (k : Int) := by ring
    rw [h2]
  · have hb : NAddr.bitLen { fam := AFam.v4, bs := bs } = 32 := rfl
    rw [hb]
    omega

theorem emit_eq6 {bs : List Nat} {k : Nat} (hpat : mappedPattern bs = false) (hk : k ≤ 128) :
    emit bs k = { addr := { fam := AFam.v6, bs := bs }, bits := (128 : Int) - (k : Int) } := by
  have h46 : NAddr.is4In6 (AddrFrom16 bs) = false :=
    (show NAddr.is4In6 (AddrFrom16 bs) = mappedPattern bs from rfl).trans hpat
  have h1 : emit bs k =
      if NAddr.is4In6 (AddrFrom16 bs) then
        PrefixFrom (NAddr.unmap (AddrFrom16 bs)) (128 - (k : Int) - 96)
      else PrefixFrom (AddrFrom16 bs) (128 - (k : Int)) := rfl
  rw [h1, if_neg (by rw [h46]; simp), PrefixFrom, if_neg]
  · rfl
  · have hb : NAddr.bitLen (AddrFrom16 bs) = 128 := rfl
    rw [hb]
    omega

theorem emit_block {a k : Nat} (ha : a < 2 ^ 128) (hk : k ≤ 128) (halign : a % 2 ^ k = 0) :
    baseV (emit (byteRep 16 a) k) = a ∧ hostB (emit (byteRep 16 a) k) = k := by
  have h256 : (256 : Nat) ^ 16 = 2 ^ 128 := by norm_num
  have hval : val (byteRep 16 a) = a := by
    rw [byteRep_val, h256]
    exact Nat.mod_eq_of_lt ha
  by_cases hpat : mappedPattern (byteRep 16 a) = true
  · have hk32 : k ≤ 32 := pattern_k_le_32 hpat halign
    rw [emit_eq4 hpat hk32]
    refine ⟨hval, ?_⟩
    show NAddr.bitLen { fam := AFam.v4, bs := byteRep 16 a } - ((32 : Int) - (k : Int)).toNat = k
    have : NAddr.bitLen { fam := AFam.v4, bs := byteRep 16 a } = 32 := rfl
    rw [this]
    omega
  · have hpat2 : mappedPattern (byteRep 16 a) = false := by
      simpa using hpat
    rw [emit_eq6 hpat2 hk]
    refine ⟨hval, ?_⟩
    show NAddr.bitLen { fam := AFam.v6, bs := byteRep 16 a } - ((128 : Int) - (k : Int)).toNat = k
    have : NAddr.bitLen { fam := AFam.v6, bs := byteRep 16 a } = 128 := rfl
    rw [this]
    omega

theorem Tiles_count {z : Nat} (hz : z < 2 ^ 128) :
    ∀ (l : List Pfx) (a : Nat), Tiles a z l →
    ∀ x, l.countP (fun p => decide (memP p x)) = if a ≤ x ∧ x ≤ z then 1 else 0 := by
  intro l
  induction l with
  | nil =>
    intro a ht x
    have hza : z < a := ht
    rw [List.countP_nil, if_neg]
    omega
  | cons p rest ih =>
    intro a ht x
    obtain ⟨k, hk128, hp, halign, hbound, hmaxx, htrest⟩ := ht
    subst hp
    have h2k : (0 : Nat) < 2 ^ k := Nat.pos_pow_of_pos _ (by norm_num)
    have ha : a < 2 ^ 128 := by omega
    obtain ⟨hbase, hhost⟩ := emit_block ha hk128 halign
    rw [List.countP_cons, ih (a + 2 ^ k) htrest x]
    have hmem : decide (memP (emit (byteRep 16 a) k) x) = true ↔ (a ≤ x ∧ x ≤ a + 2 ^ k - 1) := by
      rw [decide_eq_true_eq, memP, hbase, hhost]
    have hite : (if decide (memP (emit (byteRep 16 a) k) x) = true then 1 else 0) =
        (if a ≤ x ∧ x ≤ a + 2 ^ k - 1 then (1 : Nat) else 0) := by
      by_cases hc : a ≤ x ∧ x ≤ a + 2 ^ k - 1
      · rw [if_pos (hmem.2 hc), if_pos hc]
      · rw [if_neg (fun hd => hc (hmem.1 hd)), if_neg hc]
    rw [hite]
    split_ifs <;> omega

theorem Tiles_chain {z : Nat} (hz : z < 2 ^ 128) :
    ∀ (l : List Pfx) (a : Nat), Tiles a z l →
    List.Chain' (fun p q => baseV p < baseV q ∧ baseV p + 2 ^ hostB p = baseV q) l := by
  intro l
  induction l with
  | nil =>
    intro a _
    simp
  | cons p rest ih =>
    intro a ht
    obtain ⟨k, hk128, hp, halign, hbound, hmaxx, htrest⟩ := ht
    subst hp
    have h2k : (0 : Nat) < 2 ^ k := Nat.pos_pow_of_pos _ (by norm_num)
    have ha : a < 2 ^ 128 := by omega
    obtain ⟨hbase, hhost⟩ := emit_block ha hk128 halign
    cases rest with
    | nil => simp
    | cons q t =>
      obtain ⟨k2, hk2128, hq, halign2, hbound2, hmax2, ht2⟩ := htrest
      have h2k2 : (0 : Nat) < 2 ^ k2 := Nat.pos_pow_of_pos _ (by norm_num)
      have ha2 : a + 2 ^ k < 2 ^ 128 := by omega
      obtain ⟨hbase2, hhost2⟩ := emit_block ha2 hk2128 halign2
      rw [List.chain'_cons]
      refine ⟨?_, ih (a + 2 ^ k) ⟨k2, hk2128, hq, halign2, hbound2, hmax2, ht2⟩⟩
      subst hq
      rw [hbase, hhost, hbase2]
      omega

theorem Tiles_align {z : Nat} (hz : z < 2 ^ 128) :
    ∀ (l : List Pfx) (a : Nat), Tiles a z l → ∀ p ∈ l,
    baseAddrNat p % 2 ^ (addressBits p - p.bits.toNat) = 0 := by
  intro l
  induction l with
  | nil =>
    intro a _ p hp
    exact absurd hp (by simp)
  | cons p rest ih =>
    intro a ht q hq
    obtain ⟨k, hk128, hp, halign, hbound, hmaxx, htrest⟩ := ht
    have h2k : (0 : Nat) < 2 ^ k := Nat.pos_pow_of_pos _ (by norm_num)
    have ha : a < 2 ^ 128 := by omega
    rcases List.mem_cons.1 hq with hqp | hqr
    · subst hqp
      subst hp
      have h256 : (256 : Nat) ^ 16 = 2 ^ 128 := by norm_num
      have hval : val (byteRep 16 a) = a := by
        rw [byteRep_val, h256]
        exact Nat.mod_eq_of_lt ha
      by_cases hpat : mappedPattern (byteRep 16 a) = true
      · have hk32 : k ≤ 32 := pattern_k_le_32 hpat halign
        rw [emit_eq4 hpat hk32]
        have hb1 : baseAddrNat { addr := { fam := AFam.v4, bs := byteRep 16 a },
                                 bits := (32 : Int) - (k : Int) } = val (byteRep 16 a) % 2 ^ 32 := rfl
        have hb2 : addressBits { addr := { fam := AFam.v4, bs := byteRep 16 a },
                                 bits := (32 : Int) - (k : Int) } = 32 := rfl
        have hb3 : Pfx.bits { addr := { fam := AFam.v4, bs := byteRep 16 a },
                              bits := (32 : Int) - (k : Int) } = (32 : Int) - (k : Int) := rfl
        rw [hb1, hb2, hb3, hval]
        have hexp : 32 - ((32 : Int) - (k : Int)).toNat = k := by omega
        rw [hexp, Nat.mod_mod_of_dvd _ (pow_dvd_pow 2 hk32)]
        exact halign
      · have hpat2 : mappedPattern (byteRep 16 a) = false := by simpa using hpat
        rw [emit_eq6 hpat2 hk128]
        have hb1 : baseAddrNat { addr := { fam := AFam.v6, bs := byteRep 16 a },
                                 bits := (128 : Int) - (k : Int) } = val (byteRep 16 a) := rfl
        have hb2 : addressBits { addr := { fam := AFam.v6, bs := byteRep 16 a },
                                 bits := (128 : Int) - (k : Int) } = 128 := rfl
        have hb3 : Pfx.bits { addr := { fam := AFam.v6, bs := byteRep 16 a },
                              bits := (128 : Int) - (k : Int) } = (128 : Int) - (k : Int) := rfl
        rw [hb1, hb2, hb3, hval]
        have hexp : 128 - ((128 : Int) - (k : Int)).toNat = k := by omega
        rw [hexp]
        exact halign
    · exact ih (a + 2 ^ k) htrest q hqr

theorem Normalize_bytes {v : Range} (hA : Bytes 16 v.A) (hZ : Bytes 16 v.Z) :
    Bytes 16 v.Normalize.A ∧ Bytes 16 v.Normalize.Z := by
  rw [Range.Normalize]
  split_ifs
  · exact ⟨hZ, hA⟩
  · exact ⟨hA, hZ⟩

/-- C1 (amended to ranges whose high end is below the maximum address,
forced by the counterexample `C1_counterexample`): for every normalized
well-formed range with `Z` below `2^128 - 1`, `Deaggregate` returns a
prefix list in which every address of the closed interval from `A` to `Z`
lies in exactly one prefix block, and no block contains any address
outside the interval. -/
theorem C1_deaggregate_coverage (v : Range) (hA : Bytes 16 v.A) (hZ : Bytes 16 v.Z)
    (hnorm : val v.A ≤ val v.Z) (htop : val v.Z < 2 ^ 128 - 1) :
    ∃ l, v.Deaggregate = some l ∧
      ∀ x : Nat, l.countP (fun p => decide (memP p x)) =
        if val v.A ≤ x ∧ x ≤ val v.Z then 1 else 0 := by
  have hcmp : ¬ Cmp v.A v.Z = 1 := by
    rw [Cmp_eq_one hA hZ]
    omega
  have hnoswap : v.Normalize = v := by
    rw [Range.Normalize, if_neg hcmp]
  obtain ⟨l, hl⟩ := splitFuel_term hZ htop (val v.Z + 1 - val v.A + 1) v.A hA (le_refl _)
  refine ⟨l, ?_, ?_⟩
  · show splitFuel v.Normalize.A v.Normalize.Z
      (val v.Normalize.Z + 1 - val v.Normalize.A + 1) = some l
    rw [hnoswap]
    exact hl
  · intro x
    have htiles := splitFuel_post hZ (val v.Z + 1 - val v.A + 1) v.A l hA hl
    exact Tiles_count (by omega) l (val v.A) htiles x

/-- C1 counterexample: for the normalized range from the maximum address
to itself, the source loop never returns (the model yields `none` for the
actual fuel and for every fuel), so no prefix list covering the range is
returned. -/
theorem C1_counterexample :
    Range.Deaggregate { A := max16, Z := max16 } = none ∧
    ∀ fuel, splitFuel max16 max16 fuel = none := by
  have hall : ∀ fuel, splitFuel max16 max16 fuel = none := by
    intro fuel
    cases fuel with
    | zero => rfl
    | succ f =>
      rw [splitFuel, if_neg (by decide)]
      have h1 : innerScan max16 max16 zero16 0 200 = some 0 := by decide
      rw [h1]
      dsimp only
      have h2 : (Add max16 (SetBit zero16 0 true)).1 = zero16 := by decide
      rw [h2, splitFuel_zero_max f]
  refine ⟨?_, hall⟩
  show splitFuel max16 max16 (val max16 + 1 - val max16 + 1) = none
  exact hall _

/-- C1 witness: coverage at the concrete range from 0 to 3. -/
theorem C1_witness :
    ∃ l, Range.Deaggregate { A := zero16, Z := byteRep 16 3 } = some l ∧
      ∀ x : Nat, l.countP (fun p => decide (memP p x)) =
        if val zero16 ≤ x ∧ x ≤ val (byteRep 16 3) then 1 else 0 :=
  C1_deaggregate_coverage _ (by decide) (by decide) (by decide) (by decide)

/-- C2: the code does not terminate on the full address space. For the
range from 0 to `2^128 - 1` the embedded loop yields `none` at the actual
fuel of `Deaggregate` and at every fuel, modelling divergence of the Go
loop: `GetBit` returns `false` for every index from 128 on, so the inner
bit scan of `splitIntoPrefixes` never exits once the low bound is 0 and
the high bound is all-ones. -/
theorem C2_deaggregate_divergence :
    Range.Deaggregate { A := zero16, Z := max16 } = none ∧
    ∀ fuel, splitFuel zero16 max16 fuel = none := by
  refine ⟨?_, splitFuel_zero_max⟩
  show splitFuel zero16 max16 (val max16 + 1 - val zero16 + 1) = none
  exact splitFuel_zero_max _

/-- C6: whenever `Deaggregate` returns a prefix list, consecutive prefixes
are strictly increasing in base address and the last address of each block
plus one is the base address of the next block. -/
theorem C6_prefixes_contiguous (v : Range) (hA : Bytes 16 v.A) (hZ : Bytes 16 v.Z)
    (l : List Pfx) (h : v.Deaggregate = some l) :
    List.Chain' (fun p q => baseV p < baseV q ∧ baseV p + 2 ^ hostB p = baseV q) l := by
  obtain ⟨hA2, hZ2⟩ := Normalize_bytes hA hZ
  have hrun : splitFuel v.Normalize.A v.Normalize.Z
      (val v.Normalize.Z + 1 - val v.Normalize.A + 1) = some l := h
  have htiles := splitFuel_post hZ2 _ v.Normalize.A l hA2 hrun
  exact Tiles_chain (val_lt_pow128 hZ2) l (val v.Normalize.A) htiles

/-- C6 witness: contiguity of the two prefixes returned for the concrete
range from 0 to 2. -/
theorem C6_witness :
    List.Chain' (fun p q => baseV p < baseV q ∧ baseV p + 2 ^ hostB p = baseV q)
      [{ addr := { fam := AFam.v6, bs := zero16 }, bits := 127 },
       { addr := { fam := AFam.v6, bs := byteRep 16 2 }, bits := 128 }] :=
  C6_prefixes_contiguous { A := zero16, Z := byteRep 16 2 } (by decide) (by decide)
    _ (by decide)

/-- C7: every prefix emitted by `Deaggregate` is block-aligned: the base
address in its own family has its low `addressBits - length` bits all
zero, where `addressBits` is 32 for IPv4 results and 128 otherwise. -/
theorem C7_alignment (v : Range) (hA : Bytes 16 v.A) (hZ : Bytes 16 v.Z)
    (l : List Pfx) (h : v.Deaggregate = some l) (p : Pfx) (hp : p ∈ l) :
    baseAddrNat p % 2 ^ (addressBits p - p.bits.toNat) = 0 := by
  obtain ⟨hA2, hZ2⟩ := Normalize_bytes hA hZ
  have hrun : splitFuel v.Normalize.A v.Normalize.Z
      (val v.Normalize.Z + 1 - val v.Normalize.A + 1) = some l := h
  have htiles := splitFuel_post hZ2 _ v.Normalize.A l hA2 hrun
  exact Tiles_align (val_lt_pow128 hZ2) l (val v.Normalize.A) htiles p hp

/-- C7 witness: alignment of the first prefix returned for the concrete
IPv4-mapped range covering 23.128.1.0 to 23.128.7.255. -/
theorem C7_witness :
    baseAddrNat { addr := { fam := AFam.v4, bs := [0, 0, 0, 0, 0, 0, 0, 0, 0, 0, 255, 255, 23, 128, 1, 0] }, bits := 24 } %
      2 ^ (addressBits { addr := { fam := AFam.v4, bs := [0, 0, 0, 0, 0, 0, 0, 0, 0, 0, 255, 255, 23, 128, 1, 0] }, bits := 24 } -
        (Pfx.bits { addr := { fam := AFam.v4, bs := [0, 0, 0, 0, 0, 0, 0, 0, 0, 0, 255, 255, 23, 128, 1, 0] }, bits := 24 }).toNat) = 0 :=
  C7_alignment
    { A := [0, 0, 0, 0, 0, 0, 0, 0, 0, 0, 255, 255, 23, 128, 1, 0],
      Z := [0, 0, 0, 0, 0, 0, 0, 0, 0, 0, 255, 255, 23, 128, 7, 255] }
    (by decide) (by decide)
    [{ addr := { fam := AFam.v4, bs := [0, 0, 0, 0, 0, 0, 0, 0, 0, 0, 255, 255, 23, 128, 1, 0] }, bits := 24 },
     { addr := { fam := AFam.v4, bs := [0, 0, 0, 0, 0, 0, 0, 0, 0, 0, 255, 255, 23, 128, 2, 0] }, bits := 23 },
     { addr := { fam := AFam.v4, bs := [0, 0, 0, 0, 0, 0, 0, 0, 0, 0, 255, 255, 23, 128, 4, 0] }, bits := 22 }]
    (by decide) _ (by decide)

/-- C9: out-of-range bit access is benign: for every byte array and every
bit index of at least 128, `GetBit` returns `false` and `SetBit` leaves
the array unchanged, for both boolean arguments. -/
theorem C9_bit_ops_out_of_range (a : List Nat) (n : Nat) (h : 128 ≤ n) (v : Bool) :
    GetBit a n = false ∧ SetBit a n v = a :=
  ⟨GetBit_oob a n h, SetBit_oob a n v h⟩

/-- C9 witness: the out-of-range behaviour at bit 130 of the all-ones
array. -/
theorem C9_witness : GetBit max16 130 = false ∧ SetBit max16 130 true = max16 :=
  C9_bit_ops_out_of_range max16 130 (by decide) true

theorem foldl_SetBit_val {A : List Nat} (hA : Bytes 16 A) :
    ∀ h : Nat, h ≤ 128 →
    Bytes 16 ((List.range h).foldl (fun z i => SetBit z i true) A) ∧
    val ((List.range h).foldl (fun z i => SetBit z i true) A) = val A ||| (2 ^ h - 1) := by
  intro h
  induction h with
  | zero =>
    intro _
    simp only [List.range_zero, List.foldl_nil]
    refine ⟨hA, ?_⟩
    norm_num
  | succ h ih =>
    intro hle
    obtain ⟨ihB, ihv⟩ := ih (by omega)
    rw [List.range_succ, List.foldl_append, List.foldl_cons, List.foldl_nil]
    have hsv := SetBit_val ihB h (by omega)
    refine ⟨hsv.1, ?_⟩
    rw [hsv.2, ihv, Nat.lor_assoc, ones_lor_next]

theorem Tiles_single {a h : Nat} (hh : h ≤ 128) (halign : a % 2 ^ h = 0) :
    ∀ l, Tiles a (a + 2 ^ h - 1) l → l = [emit (byteRep 16 a) h] := by
  intro l ht
  have h2h : (0 : Nat) < 2 ^ h := Nat.pos_pow_of_pos _ (by norm_num)
  match l with
  | [] =>
    have hlt : a + 2 ^ h - 1 < a := ht
    omega
  | p :: rest =>
    obtain ⟨k, hk128, hp, halignk, hbound, hmaxx, htrest⟩ := ht
    have h2k : (0 : Nat) < 2 ^ k := Nat.pos_pow_of_pos _ (by norm_num)
    have hkh : k ≤ h := by
      have : (2 : Nat) ^ k ≤ 2 ^ h := by omega
      by_contra hc
      have : (2 : Nat) ^ h < 2 ^ k := Nat.pow_lt_pow_right (by norm_num) (by omega)
      omega
    have hkeq : k = h := by
      by_contra hne
      have hklt : k < h := by omega
      have htb : a.testBit k = false := testBit_false_of_aligned halign hklt
      have h2k1 : (2 : Nat) ^ (k + 1) ≤ 2 ^ h := Nat.pow_le_pow_right (by norm_num) (by omega)
      rcases hmaxx with hbit | hover
      · rw [htb] at hbit
        exact absurd hbit (by simp)
      · omega
    subst hkeq
    have hrest : rest = [] := by
      match rest with
      | [] => rfl
      | q :: t =>
        obtain ⟨k2, _, _, _, hbound2, _, _⟩ := htrest
        have h2k2 : (0 : Nat) < 2 ^ k2 := Nat.pos_pow_of_pos _ (by norm_num)
        omega
    rw [hp, hrest]

/-- C4 (amended, forced by the counterexample `C4_counterexample` and the
behaviour of the source at IPv4-mapped bases and at the top of the address
space): for every well-formed prefix that is valid, masked, whose IPv6
form carries the IPv4-mapped pattern exactly when the prefix is an IPv4
prefix, and whose block does not end at the maximum address,
`Deaggregate(RangeFromPrefix(p))` returns exactly the one-element list
containing `p`. -/
theorem C4_roundtrip (p : Pfx)
    (hB : Bytes 16 p.addr.bs)
    (hfam : p.addr.fam = AFam.v4 ∨ p.addr.fam = AFam.v6)
    (hv4map : p.addr.fam = AFam.v4 → mappedPattern p.addr.bs = true)
    (hv6not : p.addr.fam = AFam.v6 → mappedPattern p.addr.bs = false)
    (hbits : 0 ≤ p.bits ∧ p.bits ≤ (p.addr.bitLen : Int))
    (hmasked : val p.addr.bs % 2 ^ (p.addr.bitLen - p.bits.toNat) = 0)
    (htop : val p.addr.bs + 2 ^ (p.addr.bitLen - p.bits.toNat) - 1 < 2 ^ 128 - 1) :
    ( RangeFromPrefix p).Deaggregate = some [p] := by
  set h := p.addr.bitLen - p.bits.toNat with hh
  have hbl : p.addr.bitLen = 32 ∨ p.addr.bitLen = 128 := by
    rcases hfam with h4 | h6
    · left
      rw [NAddr.bitLen, h4]
    · right
      rw [NAddr.bitLen, h6]
  have hh128 : h ≤ 128 := by omega
  have h2h : (0 : Nat) < 2 ^ h := Nat.pos_pow_of_pos _ (by norm_num)
  have hmasked2 : p.masked = { addr := { fam := p.addr.fam, bs := p.addr.bs }, bits := p.bits } := by
    rw [Pfx.masked, if_pos hbits]
    dsimp only
    have hdiv : val p.addr.bs / 2 ^ h * 2 ^ h = val p.addr.bs :=
      Nat.div_mul_cancel (Nat.dvd_of_mod_eq_zero hmasked)
    rw [hdiv, byteRep_of_val hB]
  have hixEnd : ((p.addr.bitLen : Int) - p.bits).toNat = h := by omega
  have hA : ( RangeFromPrefix p).A = p.addr.bs := by
    rw [RangeFromPrefix, hmasked2]
    rfl
  have hZdef : ( RangeFromPrefix p).Z =
      (List.range h).foldl (fun z i => SetBit z i true) p.addr.bs := by
    rw [RangeFromPrefix, hmasked2, hixEnd]
    rfl
  obtain ⟨hZB, hZv⟩ := foldl_SetBit_val hB h hh128
  have hZval : val ( RangeFromPrefix p).Z = val p.addr.bs + (2 ^ h - 1) := by
    rw [hZdef, hZv, aligned_lor_ones hmasked]
  have hAB : Bytes 16 ( RangeFromPrefix p).A := by
    rw [hA]
    exact hB
  have hZB2 : Bytes 16 ( RangeFromPrefix p).Z := by
    rw [hZdef]
    exact hZB
  have hnorm : val ( RangeFromPrefix p).A ≤ val ( RangeFromPrefix p).Z := by
    rw [hA, hZval]
    omega
  have htop2 : val ( RangeFromPrefix p).Z < 2 ^ 128 - 1 := by
    rw [hZval]
    omega
  have hcmp : ¬ Cmp ( RangeFromPrefix p).A ( RangeFromPrefix p).Z = 1 := by
    rw [Cmp_eq_one hAB hZB2]
    omega
  have hnoswap : ( RangeFromPrefix p).Normalize = RangeFromPrefix p := by
    rw [Range.Normalize, if_neg hcmp]
  obtain ⟨l, hl⟩ := splitFuel_term hZB2 htop2
    (val ( RangeFromPrefix p).Z + 1 - val ( RangeFromPrefix p).A + 1)
    ( RangeFromPrefix p).A hAB (le_refl _)
  have htiles := splitFuel_post hZB2 _ _ l hAB hl
  have htzeq : val ( RangeFromPrefix p).Z = val ( RangeFromPrefix p).A + 2 ^ h - 1 := by
    rw [hA, hZval]
    omega
  rw [htzeq] at htiles
  have halign2 : val ( RangeFromPrefix p).A % 2 ^ h = 0 := by
    rw [hA]
    exact hmasked
  have hsingle := Tiles_single hh128 halign2 l htiles
  have hemit : emit (byteRep 16 (val ( RangeFromPrefix p).A)) h = p := by
    rw [hA, byteRep_of_val hB]
    rcases hfam with h4 | h6
    · have hpat := hv4map h4
      have hbl4 : p.addr.bitLen = 32 := by rw [NAddr.bitLen, h4]
      have hk32 : h ≤ 32 := by omega
      rw [emit_eq4 hpat hk32]
      have hbits2 : (32 : Int) - (h : Int) = p.bits := by
        rw [hh, hbl4]
        omega
      have hpeta : p = { addr := { fam := p.addr.fam, bs := p.addr.bs }, bits := p.bits } := rfl
      rw [hpeta, h4, hbits2]
    · have hpat := hv6not h6
      have hbl6 : p.addr.bitLen = 128 := by rw [NAddr.bitLen, h6]
      rw [emit_eq6 hpat hh128]
      have hbits2 : (128 : Int) - (h : Int) = p.bits := by
        rw [hh, hbl6]
        omega
      have hpeta : p = { addr := { fam := p.addr.fam, bs := p.addr.bs }, bits := p.bits } := rfl
      rw [hpeta, h6, hbits2]
  have hres : ( RangeFromPrefix p).Deaggregate = some l := by
    show splitFuel ( RangeFromPrefix p).Normalize.A ( RangeFromPrefix p).Normalize.Z
      (val ( RangeFromPrefix p).Normalize.Z + 1 - val ( RangeFromPrefix p).Normalize.A + 1) = some l
    rw [hnoswap]
    exact hl
  rw [hres, hsingle, hemit]

/-- C4 counterexample: the IPv4 prefix 0.0.0.1/24 is not masked, and the
round trip returns the masked prefix 0.0.0.0/24 instead of the original
prefix. -/
theorem C4_counterexample :
    ( RangeFromPrefix { addr := { fam := AFam.v4, bs := [0, 0, 0, 0, 0, 0, 0, 0, 0, 0, 255, 255, 0, 0, 0, 1] }, bits := 24 }).Deaggregate ≠
      some [{ addr := { fam := AFam.v4, bs := [0, 0, 0, 0, 0, 0, 0, 0, 0, 0, 255, 255, 0, 0, 0, 1] }, bits := 24 }] := by
  decide

/-- C4 witness: the round trip at the masked IPv4 prefix 0.0.0.0/24. -/
theorem C4_witness :
    ( RangeFromPrefix { addr := { fam := AFam.v4, bs := [0, 0, 0, 0, 0, 0, 0, 0, 0, 0, 255, 255, 0, 0, 0, 0] }, bits := 24 }).Deaggregate =
      some [{ addr := { fam := AFam.v4, bs := [0, 0, 0, 0, 0, 0, 0, 0, 0, 0, 255, 255, 0, 0, 0, 0] }, bits := 24 }] :=
  C4_roundtrip _ (by decide) (by decide) (by decide) (by decide) (by decide) (by decide)
    (by decide)

theorem insertR_perm (le : Range → Range → Bool) (r : Range) :
    ∀ l, (insertR le r l).Perm (r :: l) := by
  intro l
  induction l with
  | nil => rfl
  | cons s t ih =>
    rw [insertR]
    by_cases hc : le r s
    · rw [if_pos hc]
    · rw [if_neg hc]
      exact (ih.cons s).trans (List.Perm.swap r s t)

theorem sortR_perm (le : Range → Range → Bool) :
    ∀ l, (sortR le l).Perm l := by
  intro l
  induction l with
  | nil => rfl
  | cons r t ih =>
    rw [sortR]
    exact (insertR_perm le r (sortR le t)).trans (ih.cons r)

theorem insertR_mem {le : Range → Range → Bool} {r s : Range} {l : List Range}
    (h : s ∈ insertR le r l) : s = r ∨ s ∈ l := by
  have := (insertR_perm le r l).mem_iff.1 h
  simpa using this

theorem insertR_sorted {le : Range → Range → Bool} {r : Range} :
    ∀ {l : List Range},
    (∀ s ∈ l, (le r s = true → val r.A ≤ val s.A) ∧ (le r s = false → val s.A ≤ val r.A)) →
    l.Pairwise (fun a b => val a.A ≤ val b.A) →
    (insertR le r l).Pairwise (fun a b => val a.A ≤ val b.A) := by
  intro l
  induction l with
  | nil =>
    intro _ _
    rw [insertR]
    exact List.pairwise_singleton _ _
  | cons s t ih =>
    intro hiff hsort
    rw [insertR]
    by_cases hc : le r s
    · rw [if_pos hc]
      have hrs : val r.A ≤ val s.A := (hiff s (by simp)).1 hc
      refine List.Pairwise.cons ?_ hsort
      intro b hb
      rcases List.mem_cons.1 hb with hbs | hbt
      · rw [hbs]
        exact hrs
      · have := (List.pairwise_cons.1 hsort).1 b hbt
        omega
    · rw [if_neg hc]
      have hsr : val s.A ≤ val r.A := (hiff s (by simp)).2 (by simpa using hc)
      refine List.Pairwise.cons ?_ ?_
      · intro b hb
        rcases insertR_mem hb with hbr | hbt
        · rw [hbr]
          exact hsr
        · exact (List.pairwise_cons.1 hsort).1 b hbt
      · exact ih (fun u hu => hiff u (by simp [hu])) (List.pairwise_cons.1 hsort).2

theorem sortR_sorted {le : Range → Range → Bool} :
    ∀ {l : List Range},
    (∀ a ∈ l, ∀ b ∈ l, (le a b = true → val a.A ≤ val b.A) ∧ (le a b = false → val b.A ≤ val a.A)) →
    (sortR le l).Pairwise (fun a b => val a.A ≤ val b.A) := by
  intro l
  induction l with
  | nil =>
    intro _
    simp [sortR]
  | cons r t ih =>
    intro hiff
    rw [sortR]
    apply insertR_sorted
    · intro s hs
      have hst : s ∈ t := (sortR_perm le t).mem_iff.1 hs
      exact hiff r (by simp) s (by simp [hst])
    · exact ih (fun a ha b hb => hiff a (by simp [ha]) b (by simp [hb]))

theorem newLe_bounds {a b : Range} (ha : Bytes 16 a.A) (hb : Bytes 16 b.A) :
    (newLe a b = true → val a.A ≤ val b.A) ∧ (newLe a b = false → val b.A ≤ val a.A) := by
  constructor
  · intro h
    have := of_decide_eq_true (by rwa [newLe] at h)
    exact (Cmp_le_zero_iff ha hb).1 this
  · intro h
    have h2 : ¬ Cmp a.A b.A ≤ 0 := by
      intro hc
      rw [newLe, decide_eq_true hc] at h
      exact absurd h (by simp)
    have := (Cmp_le_zero_iff ha hb).not.1 h2
    omega

theorem sweep_norm : ∀ (t : List Range) (done : List Range) (top : Range),
    (∀ r ∈ t, Bytes 16 r.A ∧ Bytes 16 r.Z) →
    (∀ r ∈ t, val r.A ≤ val r.Z) →
    (∀ r ∈ done, val r.A ≤ val r.Z) →
    Bytes 16 top.A → Bytes 16 top.Z →
    val top.A ≤ val top.Z →
    ∀ r ∈ (t.foldl sweepStep (done, top)).1 ++ [(t.foldl sweepStep (done, top)).2],
      val r.A ≤ val r.Z := by
  intro t
  induction t with
  | nil =>
    intro done top _ _ hdone _ _ htop r hr
    rw [List.foldl_nil] at hr
    rcases List.mem_append.1 hr with h | h
    · exact hdone r h
    · rw [List.mem_singleton.1 h]
      exact htop
  | cons s t ih =>
    intro done top hB hN hdone htA htZ htop r hr
    rw [List.foldl_cons] at hr
    have hstep : sweepStep (done, top) s =
        if 0 ≤ Cmp s.A top.A ∧ Cmp s.A (Add top.Z one16).1 ≤ 0 then
          (done, { A := top.A, Z := if Cmp s.Z top.Z = 1 then s.Z else top.Z })
        else (done ++ [top], s) := rfl
    by_cases hc : 0 ≤ Cmp s.A top.A ∧ Cmp s.A (Add top.Z one16).1 ≤ 0
    · rw [hstep, if_pos hc] at hr
      have hsB := hB s (by simp)
      have htop2 : val top.A ≤ val (if Cmp s.Z top.Z = 1 then s.Z else top.Z) := by
        by_cases hz : Cmp s.Z top.Z = 1
        · rw [if_pos hz]
          have := (Cmp_eq_one hsB.2 htZ).1 hz
          omega
        · rw [if_neg hz]
          exact htop
      have htZ2 : Bytes 16 (if Cmp s.Z top.Z = 1 then s.Z else top.Z) := by
        by_cases hz : Cmp s.Z top.Z = 1
        · rw [if_pos hz]
          exact hsB.2
        · rw [if_neg hz]
          exact htZ
      exact ih done { A := top.A, Z := if Cmp s.Z top.Z = 1 then s.Z else top.Z }
        (fun u hu => hB u (by simp [hu])) (fun u hu => hN u (by simp [hu]))
        hdone htA htZ2 htop2 r hr
    · rw [hstep, if_neg hc] at hr
      have hsB := hB s (by simp)
      refine ih (done ++ [top]) s (fun u hu => hB u (by simp [hu]))
        (fun u hu => hN u (by simp [hu])) ?_ hsB.1 hsB.2 (hN s (by simp)) r hr
      intro u hu
      rcases List.mem_append.1 hu with h | h
      · exact hdone u h
      · rw [List.mem_singleton.1 h]
        exact htop

theorem aggregate_norm (sR : List Range)
    (hB : ∀ r ∈ sR, Bytes 16 r.A ∧ Bytes 16 r.Z)
    (hlen : sR.length ≠ 1) :
    ∀ r ∈ Aggregate sR, val r.A ≤ val r.Z := by
  rw [Aggregate]
  by_cases hsmall : sR.length < 2
  · rw [if_pos hsmall]
    have hnil : sR = [] := by
      match sR with
      | [] => rfl
      | [r] => simp at hlen
      | a :: b :: t =>
        rw [List.length_cons, List.length_cons] at hsmall
        omega
    subst hnil
    intro r hr
    exact absurd hr (by simp)
  · rw [if_neg hsmall]
    have hmapB : ∀ r ∈ sR.map Range.Normalize, Bytes 16 r.A ∧ Bytes 16 r.Z := by
      intro r hr
      obtain ⟨s, hs, hmap⟩ := List.mem_map.1 hr
      obtain ⟨h1, h2⟩ := hB s hs
      rw [← hmap]
      exact Normalize_bytes h1 h2
    have hmapN : ∀ r ∈ sR.map Range.Normalize, val r.A ≤ val r.Z := by
      intro r hr
      obtain ⟨s, hs, hmap⟩ := List.mem_map.1 hr
      obtain ⟨h1, h2⟩ := hB s hs
      rw [← hmap, Range.Normalize]
      split_ifs with hc
      · have := (Cmp_eq_one h1 h2).1 hc
        show val s.Z ≤ val s.A
        omega
      · exact (Cmp_ne_one h1 h2).1 hc
    have hsB : ∀ r ∈ sortR newLe (sR.map Range.Normalize), Bytes 16 r.A ∧ Bytes 16 r.Z := by
      intro r hr
      exact hmapB r ((sortR_perm newLe _).mem_iff.1 hr)
    have hsN : ∀ r ∈ sortR newLe (sR.map Range.Normalize), val r.A ≤ val r.Z := by
      intro r hr
      exact hmapN r ((sortR_perm newLe _).mem_iff.1 hr)
    match hsrt : sortR newLe (sR.map Range.Normalize) with
    | [] =>
      intro r hr
      exact absurd hr (by simp)
    | h :: t =>
      have hhB := hsB h (by rw [hsrt]; simp)
      have hhN := hsN h (by rw [hsrt]; simp)
      exact sweep_norm t [] h
        (fun u hu => hsB u (by rw [hsrt]; simp [hu]))
        (fun u hu => hsN u (by rw [hsrt]; simp [hu]))
        (fun u hu => absurd hu (by simp)) hhB.1 hhB.2 hhN

/-- C8 (amended, forced by the counterexample `C8_counterexample`): for
every well-formed input collection whose length is not exactly one, every
range in the collection returned by `Aggregate` satisfies `A ≤ Z`.
Collections of fewer than two ranges are returned unchanged before the
normalization pass, so a single un-normalized range comes back
un-normalized. -/
theorem C8_aggregate_normalized (sR : List Range)
    (hB : ∀ r ∈ sR, Bytes 16 r.A ∧ Bytes 16 r.Z)
    (hlen : sR.length ≠ 1) :
    ∀ r ∈ Aggregate sR, val r.A ≤ val r.Z :=
  aggregate_norm sR hB hlen

/-- C8 counterexample: a single un-normalized range is returned unchanged
by `Aggregate`, so its endpoints stay out of order. -/
theorem C8_counterexample :
    Aggregate [{ A := byteRep 16 1, Z := zero16 }] = [{ A := byteRep 16 1, Z := zero16 }] ∧
    ¬ val ({ A := byteRep 16 1, Z := zero16 } : Range).A ≤
      val ({ A := byteRep 16 1, Z := zero16 } : Range).Z := by
  constructor
  · rfl
  · decide

/-- C8 witness: normalization of the output for a concrete two-element
collection. -/
theorem C8_witness :
    ∃ out, out = Aggregate [{ A := zero16, Z := zero16 },
        { A := byteRep 16 1, Z := byteRep 16 1 }] ∧
      ∀ r ∈ out, val r.A ≤ val r.Z :=
  ⟨_, rfl, C8_aggregate_normalized _ (by decide) (by decide)⟩

theorem covers_nil (x : Nat) : ¬ covers [] x := by
  rintro ⟨r, hr, -⟩
  exact absurd hr (List.not_mem_nil r)

theorem covers_cons {r : Range} {t : List Range} {x : Nat} :
    covers (r :: t) x ↔ (val r.A ≤ x ∧ x ≤ val r.Z) ∨ covers t x := by
  constructor
  · rintro ⟨s, hs, h1, h2⟩
    rcases List.mem_cons.1 hs with h | h
    · rw [h] at h1 h2
      exact Or.inl ⟨h1, h2⟩
    · exact Or.inr ⟨s, h, h1, h2⟩
  · rintro (⟨h1, h2⟩ | ⟨s, hs, h1, h2⟩)
    · exact ⟨r, List.mem_cons_self r t, h1, h2⟩
    · exact ⟨s, List.mem_cons_of_mem r hs, h1, h2⟩

theorem covers_append {l m : List Range} {x : Nat} :
    covers (l ++ m) x ↔ covers l x ∨ covers m x := by
  constructor
  · rintro ⟨r, hr, h⟩
    rcases List.mem_append.1 hr with h1 | h1
    · exact Or.inl ⟨r, h1, h⟩
    · exact Or.inr ⟨r, h1, h⟩
  · rintro (⟨r, hr, h⟩ | ⟨r, hr, h⟩)
    · exact ⟨r, List.mem_append_left m hr, h⟩
    · exact ⟨r, List.mem_append_right l hr, h⟩

theorem covers_perm {l m : List Range} (h : l.Perm m) (x : Nat) :
    covers l x ↔ covers m x := by
  constructor <;> rintro ⟨r, hr, hx⟩
  · exact ⟨r, h.mem_iff.1 hr, hx⟩
  · exact ⟨r, h.mem_iff.2 hr, hx⟩

theorem specNormalize_A (s : Range) :
    val (specNormalize s).A = min (val s.A) (val s.Z) := by
  rw [specNormalize]
  by_cases hc : val s.Z < val s.A
  · rw [if_pos hc]
    show val s.Z = min (val s.A) (val s.Z)
    omega
  · rw [if_neg hc]
    show val s.A = min (val s.A) (val s.Z)
    omega

theorem specNormalize_Z (s : Range) :
    val (specNormalize s).Z = max (val s.A) (val s.Z) := by
  rw [specNormalize]
  by_cases hc : val s.Z < val s.A
  · rw [if_pos hc]
    show val s.A = max (val s.A) (val s.Z)
    omega
  · rw [if_neg hc]
    show val s.Z = max (val s.A) (val s.Z)
    omega

theorem covers_map_specNormalize (sR : List Range) (x : Nat) :
    covers (sR.map specNormalize) x ↔ coversIn sR x := by
  constructor
  · rintro ⟨r, hr, h1, h2⟩
    obtain ⟨s, hs, hmap⟩ := List.mem_map.1 hr
    rw [← hmap, specNormalize_A] at h1
    rw [← hmap, specNormalize_Z] at h2
    exact ⟨s, hs, h1, h2⟩
  · rintro ⟨s, hs, h1, h2⟩
    refine ⟨specNormalize s, List.mem_map.2 ⟨s, hs, rfl⟩, ?_, ?_⟩
    · rw [specNormalize_A]
      exact h1
    · rw [specNormalize_Z]
      exact h2

theorem disjNA_symm : Symmetric disjNA :=
  fun _ _ h => Or.symm h

theorem specLe_bounds (a b : Range) :
    (specLe a b = true → val a.A ≤ val b.A) ∧ (specLe a b = false → val b.A ≤ val a.A) := by
  constructor
  · intro h
    exact of_decide_eq_true (by rwa [specLe] at h)
  · intro h
    have h2 : ¬ val a.A ≤ val b.A := of_decide_eq_false (by rwa [specLe] at h)
    omega

theorem insertR_congr {le1 le2 : Range → Range → Bool} {r : Range} :
    ∀ {l : List Range}, (∀ s ∈ l, le1 r s = le2 r s) →
    insertR le1 r l = insertR le2 r l := by
  intro l
  induction l with
  | nil =>
    intro _
    rfl
  | cons s t ih =>
    intro h
    rw [insertR, insertR, h s (by simp), ih (fun u hu => h u (by simp [hu]))]

theorem sortR_congr {le1 le2 : Range → Range → Bool} :
    ∀ {l : List Range}, (∀ a ∈ l, ∀ b ∈ l, le1 a b = le2 a b) →
    sortR le1 l = sortR le2 l := by
  intro l
  induction l with
  | nil =>
    intro _
    rfl
  | cons r t ih =>
    intro h
    rw [sortR, sortR, ih (fun a ha b hb => h a (by simp [ha]) b (by simp [hb]))]
    exact insertR_congr (fun s hs =>
      h r (by simp) s (List.mem_cons_of_mem r ((sortR_perm le2 t).mem_iff.1 hs)))

theorem Normalize_eq_spec {v : Range} (hA : Bytes 16 v.A) (hZ : Bytes 16 v.Z) :
    v.Normalize = specNormalize v := by
  rw [Range.Normalize, specNormalize]
  by_cases hc : val v.Z < val v.A
  · rw [if_pos ((Cmp_eq_one hA hZ).2 hc), if_pos hc]
  · rw [if_neg (fun h => hc ((Cmp_eq_one hA hZ).1 h)), if_neg hc]

theorem newLe_eq_spec {a b : Range} (ha : Bytes 16 a.A) (hb : Bytes 16 b.A) :
    newLe a b = specLe a b := by
  rw [newLe, specLe]
  exact decide_eq_decide.2 (Cmp_le_zero_iff ha hb)

theorem sweepStep_eq_spec {done : List Range} {top r : Range}
    (htA : Bytes 16 top.A) (htZ : Bytes 16 top.Z)
    (hrA : Bytes 16 r.A) (hrZ : Bytes 16 r.Z)
    (hm : val top.Z < 2 ^ 128 - 1)
    (hge : val top.A ≤ val r.A) :
    sweepStep (done, top) r = specStep (done, top) r := by
  obtain ⟨hlen, hbound, hval, -⟩ :=
    Add_val top.Z one16 (htZ.1.trans bytes_one16.1.symm) htZ.2 bytes_one16.2
  have hnextB : Bytes 16 (Add top.Z one16).1 := ⟨hlen.trans htZ.1, hbound⟩
  have hnextV : val (Add top.Z one16).1 = val top.Z + 1 := by
    rw [hval, val_one16, htZ.1, pow256]
    exact Nat.mod_eq_of_lt (by omega)
  have hL : sweepStep (done, top) r =
      if 0 ≤ Cmp r.A top.A ∧ Cmp r.A (Add top.Z one16).1 ≤ 0 then
        (done, { A := top.A, Z := if Cmp r.Z top.Z = 1 then r.Z else top.Z })
      else (done ++ [top], r) := rfl
  have hR : specStep (done, top) r =
      if val r.A ≤ val top.Z + 1 then
        (done, { A := top.A, Z := if val top.Z < val r.Z then r.Z else top.Z })
      else (done ++ [top], r) := rfl
  rw [hL, hR]
  have hAA : 0 ≤ Cmp r.A top.A := (Cmp_nonneg_iff hrA htA).2 hge
  by_cases hc : val r.A ≤ val top.Z + 1
  · have hAZ : Cmp r.A (Add top.Z one16).1 ≤ 0 := by
      rw [Cmp_le_zero_iff hrA hnextB, hnextV]
      omega
    rw [if_pos ⟨hAA, hAZ⟩, if_pos hc]
    by_cases hz : val top.Z < val r.Z
    · rw [if_pos ((Cmp_eq_one hrZ htZ).2 hz), if_pos hz]
    · rw [if_neg (fun h => hz ((Cmp_eq_one hrZ htZ).1 h)), if_neg hz]
  · have hAZ : ¬ Cmp r.A (Add top.Z one16).1 ≤ 0 := by
      rw [Cmp_le_zero_iff hrA hnextB, hnextV]
      omega
    rw [if_neg (fun h => hAZ h.2), if_neg hc]

theorem sweepFold_eq_spec : ∀ (t done : List Range) (top : Range),
    (∀ r ∈ t, Bytes 16 r.A ∧ Bytes 16 r.Z) →
    (∀ r ∈ t, val r.Z < 2 ^ 128 - 1) →
    Bytes 16 top.A → Bytes 16 top.Z →
    val top.Z < 2 ^ 128 - 1 →
    (∀ r ∈ t, val top.A ≤ val r.A) →
    t.Pairwise (fun a b => val a.A ≤ val b.A) →
    t.foldl sweepStep (done, top) = t.foldl specStep (done, top) := by
  intro t
  induction t with
  | nil =>
    intro done top _ _ _ _ _ _ _
    rfl
  | cons s t ih =>
    intro done top hB hZm htA htZ htm hge hsorted
    have hsB := hB s (by simp)
    rw [List.foldl_cons, List.foldl_cons,
      sweepStep_eq_spec htA htZ hsB.1 hsB.2 htm (hge s (by simp))]
    have hstep : specStep (done, top) s =
        if val s.A ≤ val top.Z + 1 then
          (done, { A := top.A, Z := if val top.Z < val s.Z then s.Z else top.Z })
        else (done ++ [top], s) := rfl
    by_cases hc : val s.A ≤ val top.Z + 1
    · rw [hstep, if_pos hc]
      refine ih done { A := top.A, Z := if val top.Z < val s.Z then s.Z else top.Z }
        (fun u hu => hB u (by simp [hu])) (fun u hu => hZm u (by simp [hu]))
        htA ?_ ?_ (fun u hu => hge u (by simp [hu])) (List.pairwise_cons.1 hsorted).2
      · show Bytes 16 (if val top.Z < val s.Z then s.Z else top.Z)
        by_cases hz : val top.Z < val s.Z
        · rw [if_pos hz]
          exact hsB.2
        · rw [if_neg hz]
          exact htZ
      · show val (if val top.Z < val s.Z then s.Z else top.Z) < 2 ^ 128 - 1
        by_cases hz : val top.Z < val s.Z
        · rw [if_pos hz]
          exact hZm s (by simp)
        · rw [if_neg hz]
          exact htm
    · rw [hstep, if_neg hc]
      exact ih (done ++ [top]) s (fun u hu => hB u (by simp [hu]))
        (fun u hu => hZm u (by simp [hu]))
        hsB.1 hsB.2 (hZm s (by simp))
        (fun u hu => (List.pairwise_cons.1 hsorted).1 u hu)
        (List.pairwise_cons.1 hsorted).2

theorem Aggregate_eq_spec {sR : List Range}
    (hB : ∀ r ∈ sR, Bytes 16 r.A ∧ Bytes 16 r.Z)
    (hM : ∀ r ∈ sR, val r.A < 2 ^ 128 - 1 ∧ val r.Z < 2 ^ 128 - 1) :
    Aggregate sR = specAggregate sR := by
  rw [Aggregate, specAggregate]
  by_cases hsmall : sR.length < 2
  · rw [if_pos hsmall, if_pos hsmall]
  · rw [if_neg hsmall, if_neg hsmall]
    have hmapB : ∀ r ∈ sR.map Range.Normalize, Bytes 16 r.A ∧ Bytes 16 r.Z := by
      intro r hr
      obtain ⟨s, hs, hmap⟩ := List.mem_map.1 hr
      rw [← hmap]
      exact Normalize_bytes (hB s hs).1 (hB s hs).2
    have hmapeq : sR.map Range.Normalize = sR.map specNormalize :=
      List.map_congr_left (fun r hr => Normalize_eq_spec (hB r hr).1 (hB r hr).2)
    have hsorteq : sortR newLe (sR.map Range.Normalize) = sortR specLe (sR.map Range.Normalize) :=
      sortR_congr (fun a ha b hb => newLe_eq_spec (hmapB a ha).1 (hmapB b hb).1)
    rw [hsorteq, hmapeq]
    have hmapB2 : ∀ r ∈ sR.map specNormalize, Bytes 16 r.A ∧ Bytes 16 r.Z := by
      rw [← hmapeq]
      exact hmapB
    have hmapM : ∀ r ∈ sR.map specNormalize, val r.A < 2 ^ 128 - 1 ∧ val r.Z < 2 ^ 128 - 1 := by
      intro r hr
      obtain ⟨s, hs, hmap⟩ := List.mem_map.1 hr
      rw [← hmap, specNormalize]
      by_cases hc : val s.Z < val s.A
      · rw [if_pos hc]
        exact ⟨(hM s hs).2, (hM s hs).1⟩
      · rw [if_neg hc]
        exact hM s hs
    match hsrt : sortR specLe (sR.map specNormalize) with
    | [] => rfl
    | h :: t =>
      dsimp only
      have hperm := sortR_perm specLe (sR.map specNormalize)
      rw [hsrt] at hperm
      have hsorted0 : (sortR specLe (sR.map specNormalize)).Pairwise
          (fun a b => val a.A ≤ val b.A) :=
        sortR_sorted (fun a _ b _ => specLe_bounds a b)
      rw [hsrt] at hsorted0
      have htB : ∀ r ∈ h :: t, Bytes 16 r.A ∧ Bytes 16 r.Z :=
        fun r hr => hmapB2 r (hperm.mem_iff.1 hr)
      have htM : ∀ r ∈ h :: t, val r.A < 2 ^ 128 - 1 ∧ val r.Z < 2 ^ 128 - 1 :=
        fun r hr => hmapM r (hperm.mem_iff.1 hr)
      rw [sweepFold_eq_spec t [] h (fun r hr => htB r (by simp [hr]))
        (fun r hr => (htM r (by simp [hr])).2)
        (htB h (by simp)).1 (htB h (by simp)).2 (htM h (by simp)).2
        (List.pairwise_cons.1 hsorted0).1 (List.pairwise_cons.1 hsorted0).2]

theorem specFold_covers : ∀ (t done : List Range) (top : Range),
    (∀ r ∈ t, val top.A ≤ val r.A) →
    t.Pairwise (fun a b => val a.A ≤ val b.A) →
    ∀ x, (covers ((t.foldl specStep (done, top)).1 ++ [(t.foldl specStep (done, top)).2]) x ↔
      covers (done ++ top :: t) x) := by
  intro t
  induction t with
  | nil =>
    intro done top _ _ x
    rw [List.foldl_nil]
  | cons s t ih =>
    intro done top hge hsorted x
    rw [List.foldl_cons]
    have hstep : specStep (done, top) s =
        if val s.A ≤ val top.Z + 1 then
          (done, { A := top.A, Z := if val top.Z < val s.Z then s.Z else top.Z })
        else (done ++ [top], s) := rfl
    by_cases hc : val s.A ≤ val top.Z + 1
    · rw [hstep, if_pos hc]
      rw [ih done { A := top.A, Z := if val top.Z < val s.Z then s.Z else top.Z }
        (fun u hu => hge u (by simp [hu])) (List.pairwise_cons.1 hsorted).2 x]
      rw [covers_append, covers_append, covers_cons, covers_cons, covers_cons]
      have hts := hge s (by simp)
      have hiv : (val top.A ≤ x ∧ x ≤ val (if val top.Z < val s.Z then s.Z else top.Z)) ↔
          ((val top.A ≤ x ∧ x ≤ val top.Z) ∨ (val s.A ≤ x ∧ x ≤ val s.Z)) := by
        by_cases hz : val top.Z < val s.Z
        · rw [if_pos hz]
          omega
        · rw [if_neg hz]
          omega
      dsimp only
      rw [hiv]
      tauto
    · rw [hstep, if_neg hc]
      rw [ih (done ++ [top]) s (fun u hu => (List.pairwise_cons.1 hsorted).1 u hu)
        (List.pairwise_cons.1 hsorted).2 x]
      rw [covers_append, covers_append, covers_append, covers_cons, covers_cons, covers_cons]
      rw [covers_cons]
      have hnil := covers_nil x
      tauto

theorem specFold_gap : ∀ (t done : List Range) (top : Range),
    (∀ r ∈ t, val r.A ≤ val r.Z) → val top.A ≤ val top.Z →
    (∀ r ∈ t, val top.A ≤ val r.A) →
    t.Pairwise (fun a b => val a.A ≤ val b.A) →
    done.Pairwise (fun r s => val r.Z + 1 < val s.A) →
    (∀ d ∈ done, val d.Z + 1 < val top.A) →
    ((t.foldl specStep (done, top)).1 ++ [(t.foldl specStep (done, top)).2]).Pairwise
      (fun r s => val r.Z + 1 < val s.A) := by
  intro t
  induction t with
  | nil =>
    intro done top _ _ _ _ hdone hcross
    rw [List.foldl_nil]
    refine List.pairwise_append.2 ⟨hdone, List.pairwise_singleton _ _, ?_⟩
    intro d hd u hu
    rw [List.mem_singleton.1 hu]
    exact hcross d hd
  | cons s t ih =>
    intro done top hN htop hge hsorted hdone hcross
    rw [List.foldl_cons]
    have hstep : specStep (done, top) s =
        if val s.A ≤ val top.Z + 1 then
          (done, { A := top.A, Z := if val top.Z < val s.Z then s.Z else top.Z })
        else (done ++ [top], s) := rfl
    by_cases hc : val s.A ≤ val top.Z + 1
    · rw [hstep, if_pos hc]
      have hns := hN s (by simp)
      refine ih done { A := top.A, Z := if val top.Z < val s.Z then s.Z else top.Z }
        (fun u hu => hN u (by simp [hu])) ?_ (fun u hu => hge u (by simp [hu]))
        (List.pairwise_cons.1 hsorted).2 hdone (fun d hd => hcross d hd)
      show val top.A ≤ val (if val top.Z < val s.Z then s.Z else top.Z)
      by_cases hz : val top.Z < val s.Z
      · rw [if_pos hz]
        omega
      · rw [if_neg hz]
        omega
    · rw [hstep, if_neg hc]
      refine ih (done ++ [top]) s (fun u hu => hN u (by simp [hu])) (hN s (by simp))
        (fun u hu => (List.pairwise_cons.1 hsorted).1 u hu)
        (List.pairwise_cons.1 hsorted).2 ?_ ?_
      · refine List.pairwise_append.2 ⟨hdone, List.pairwise_singleton _ _, ?_⟩
        intro d hd u hu
        rw [List.mem_singleton.1 hu]
        exact hcross d hd
      · intro d hd
        rcases List.mem_append.1 hd with h | h
        · have := hcross d h
          omega
        · rw [List.mem_singleton.1 h]
          omega

theorem aggregate_props {sR : List Range} (hone : sR.length ≠ 1) :
    (∀ x, covers (specAggregate sR) x ↔ coversIn sR x) ∧
    (specAggregate sR).Pairwise (fun r s => val r.Z + 1 < val s.A) := by
  rw [specAggregate]
  by_cases hsmall : sR.length < 2
  · rw [if_pos hsmall]
    have hnil : sR = [] := by
      match sR with
      | [] => rfl
      | [r] => simp at hone
      | a :: b :: t =>
        rw [List.length_cons, List.length_cons] at hsmall
        omega
    subst hnil
    refine ⟨?_, List.Pairwise.nil⟩
    intro x
    constructor
    · rintro ⟨r, hr, -⟩
      exact absurd hr (List.not_mem_nil r)
    · rintro ⟨r, hr, -⟩
      exact absurd hr (List.not_mem_nil r)
  · rw [if_neg hsmall]
    have hperm := sortR_perm specLe (sR.map specNormalize)
    have hsorted0 : (sortR specLe (sR.map specNormalize)).Pairwise
        (fun a b => val a.A ≤ val b.A) :=
      sortR_sorted (fun a _ b _ => specLe_bounds a b)
    have hn0 : ∀ r ∈ sortR specLe (sR.map specNormalize), val r.A ≤ val r.Z := by
      intro r hr
      obtain ⟨s, hs, hmap⟩ := List.mem_map.1 (hperm.mem_iff.1 hr)
      have h1 := specNormalize_A s
      have h2 := specNormalize_Z s
      rw [hmap] at h1 h2
      omega
    match hsrt : sortR specLe (sR.map specNormalize) with
    | [] =>
      exfalso
      have hp := hperm.length_eq
      rw [hsrt, List.length_nil, List.length_map] at hp
      omega
    | h :: t =>
      rw [hsrt] at hperm hsorted0 hn0
      have hge : ∀ r ∈ t, val h.A ≤ val r.A := (List.pairwise_cons.1 hsorted0).1
      have hsortt := (List.pairwise_cons.1 hsorted0).2
      dsimp only
      constructor
      · intro x
        rw [specFold_covers t [] h hge hsortt x, List.nil_append,
          covers_perm hperm x]
        exact covers_map_specNormalize sR x
      · exact specFold_gap t [] h (fun u hu => hn0 u (by simp [hu])) (hn0 h (by simp))
          hge hsortt List.Pairwise.nil (fun d hd => absurd hd (List.not_mem_nil d))

theorem gap_imp_disjNA {l : List Range}
    (h : l.Pairwise (fun r s => val r.Z + 1 < val s.A)) : l.Pairwise disjNA :=
  h.imp (fun hx => Or.inl hx)

theorem sorted_disjNA_gap {l : List Range}
    (hs : l.Pairwise (fun a b => val a.A ≤ val b.A))
    (hd : l.Pairwise disjNA)
    (hn : ∀ r ∈ l, val r.A ≤ val r.Z) :
    l.Pairwise (fun r s => val r.Z + 1 < val s.A) := by
  refine (hs.and hd).imp_of_mem ?_
  intro a b ha hb hab
  rcases hab.2 with h | h
  · exact h
  · have hnb := hn b hb
    have h1 := hab.1
    omega

theorem uniq_gap_len : ∀ (l m : List Range),
    l.Pairwise (fun r s => val r.Z + 1 < val s.A) →
    m.Pairwise (fun r s => val r.Z + 1 < val s.A) →
    (∀ r ∈ l, val r.A ≤ val r.Z) → (∀ r ∈ m, val r.A ≤ val r.Z) →
    (∀ x, covers l x ↔ covers m x) → l.length = m.length := by
  intro l
  induction l with
  | nil =>
    intro m _ _ _ hmN hcov
    match m with
    | [] => rfl
    | s :: m' =>
      exfalso
      exact covers_nil (val s.A)
        ((hcov (val s.A)).2 ⟨s, by simp, le_refl _, hmN s (by simp)⟩)
  | cons r l' ih =>
    intro m hl hm hlN hmN hcov
    match m with
    | [] =>
      exfalso
      exact covers_nil (val r.A)
        ((hcov (val r.A)).1 ⟨r, by simp, le_refl _, hlN r (by simp)⟩)
    | s :: m' =>
      have hlg := (List.pairwise_cons.1 hl).1
      have hl' := (List.pairwise_cons.1 hl).2
      have hmg := (List.pairwise_cons.1 hm).1
      have hm' := (List.pairwise_cons.1 hm).2
      have hrn := hlN r (by simp)
      have hsn := hmN s (by simp)
      have hsr : val s.A ≤ val r.A := by
        obtain ⟨u, hu, h1, h2⟩ := (hcov (val r.A)).1 ⟨r, by simp, le_refl _, hrn⟩
        rcases List.mem_cons.1 hu with h | h
        · rw [h] at h1
          exact h1
        · have := hmg u h
          omega
      have hrs : val r.A ≤ val s.A := by
        obtain ⟨u, hu, h1, h2⟩ := (hcov (val s.A)).2 ⟨s, by simp, le_refl _, hsn⟩
        rcases List.mem_cons.1 hu with h | h
        · rw [h] at h1
          exact h1
        · have := hlg u h
          omega
      have hZeq : val r.Z = val s.Z := by
        by_contra hne
        rcases Nat.lt_or_ge (val r.Z) (val s.Z) with hlt | hge2
        · obtain ⟨u, hu, h1, h2⟩ := (hcov (val r.Z + 1)).2
            ⟨s, by simp, by omega, by omega⟩
          rcases List.mem_cons.1 hu with h | h
          · rw [h] at h2
            omega
          · have := hlg u h
            omega
        · rcases Nat.lt_or_ge (val s.Z) (val r.Z) with hlt2 | hge3
          · obtain ⟨u, hu, h1, h2⟩ := (hcov (val s.Z + 1)).1
              ⟨r, by simp, by omega, by omega⟩
            rcases List.mem_cons.1 hu with h | h
            · rw [h] at h2
              omega
            · have := hmg u h
              omega
          · omega
      have hcov' : ∀ x, covers l' x ↔ covers m' x := by
        intro x
        constructor
        · rintro ⟨u, hu, h1, h2⟩
          have hgt : val r.Z + 1 < x := by
            have := hlg u hu
            omega
          obtain ⟨w, hw, g1, g2⟩ := (hcov x).1 ⟨u, List.mem_cons_of_mem r hu, h1, h2⟩
          rcases List.mem_cons.1 hw with h | h
          · rw [h] at g2
            omega
          · exact ⟨w, h, g1, g2⟩
        · rintro ⟨u, hu, h1, h2⟩
          have hgt : val s.Z + 1 < x := by
            have := hmg u hu
            omega
          obtain ⟨w, hw, g1, g2⟩ := (hcov x).2 ⟨u, List.mem_cons_of_mem s hu, h1, h2⟩
          rcases List.mem_cons.1 hw with h | h
          · rw [h] at g2
            omega
          · exact ⟨w, h, g1, g2⟩
      rw [List.length_cons, List.length_cons,
        ih m' hl' hm' (fun u hu => hlN u (by simp [hu])) (fun u hu => hmN u (by simp [hu])) hcov']

/-- C3 (amended, forced by the counterexample `C3_counterexample`): for
every well-formed input collection whose endpoint values all lie strictly
below the maximum address `2 ^ 128 - 1` and whose length is not exactly
one, the part_003 `Aggregate` coincides with the spec-worded algorithm
`specAggregate` (whose sweep merges a range exactly when its low end is at
most the accumulator's high end plus one, raising the high end to the
larger of the two); the result covers exactly the union of the input
intervals, every output range is normalized, the output ranges are
pairwise disjoint and non-adjacent, and the output is no longer than any
normalized pairwise disjoint non-adjacent collection with the same
coverage. Collections containing the maximum address are excluded: there
the successor of the accumulator high end wraps to zero and the merge
condition fails (see the counterexample), so the output can contain
overlapping ranges. -/
theorem C3_aggregate_merge (sR : List Range)
    (hB : ∀ r ∈ sR, Bytes 16 r.A ∧ Bytes 16 r.Z)
    (hM : ∀ r ∈ sR, val r.A < 2 ^ 128 - 1 ∧ val r.Z < 2 ^ 128 - 1)
    (hone : sR.length ≠ 1) :
    Aggregate sR = specAggregate sR ∧
    (∀ x, covers (Aggregate sR) x ↔ coversIn sR x) ∧
    (∀ r ∈ Aggregate sR, val r.A ≤ val r.Z) ∧
    (Aggregate sR).Pairwise disjNA ∧
    (∀ l, (∀ x, covers l x ↔ coversIn sR x) →
      l.Pairwise disjNA → (∀ r ∈ l, val r.A ≤ val r.Z) →
      (Aggregate sR).length ≤ l.length) := by
  have heq := Aggregate_eq_spec hB hM
  obtain ⟨hcov, hgap⟩ := aggregate_props hone
  have hnorm : ∀ r ∈ Aggregate sR, val r.A ≤ val r.Z := aggregate_norm sR hB hone
  refine ⟨heq, ?_, hnorm, ?_, ?_⟩
  · rw [heq]
    exact hcov
  · rw [heq]
    exact gap_imp_disjNA hgap
  · intro l hlcov hld hln
    have hperm := sortR_perm specLe l
    have hsort : (sortR specLe l).Pairwise (fun a b => val a.A ≤ val b.A) :=
      sortR_sorted (fun a _ b _ => specLe_bounds a b)
    have hld2 : (sortR specLe l).Pairwise disjNA :=
      (hperm.pairwise_iff (fun h => Or.symm h)).2 hld
    have hln2 : ∀ r ∈ sortR specLe l, val r.A ≤ val r.Z :=
      fun r hr => hln r (hperm.mem_iff.1 hr)
    have hlg : (sortR specLe l).Pairwise (fun r s => val r.Z + 1 < val s.A) :=
      sorted_disjNA_gap hsort hld2 hln2
    have hnorm2 : ∀ r ∈ specAggregate sR, val r.A ≤ val r.Z := by
      rw [← heq]
      exact hnorm
    have hcov2 : ∀ x, covers (sortR specLe l) x ↔ covers (specAggregate sR) x := by
      intro x
      rw [covers_perm hperm x, hlcov x]
      exact (hcov x).symm
    have hlen := uniq_gap_len (sortR specLe l) (specAggregate sR) hlg hgap hln2 hnorm2 hcov2
    have hleq := hperm.length_eq
    rw [heq]
    omega

/-- C3 counterexample: with an input range reaching the maximum address,
the sweep's `Z + 1` computation wraps to zero, the merge condition fails
on the overlapping second range, and `Aggregate` returns two overlapping
ranges — not a pairwise disjoint, non-adjacent collection. -/
theorem C3_counterexample :
    ¬ (Aggregate [{ A := zero16, Z := max16 },
        { A := byteRep 16 5, Z := byteRep 16 10 }]).Pairwise disjNA := by
  intro h
  have heq : Aggregate [{ A := zero16, Z := max16 },
      { A := byteRep 16 5, Z := byteRep 16 10 }] =
      [{ A := zero16, Z := max16 }, { A := byteRep 16 5, Z := byteRep 16 10 }] := by decide
  rw [heq] at h
  have hd := (List.pairwise_cons.1 h).1 { A := byteRep 16 5, Z := byteRep 16 10 } (by simp)
  refine absurd hd ?_
  unfold disjNA
  decide

/-- C3 witness: the amended aggregation theorem at a concrete two-range
collection (two adjacent one-address ranges, merged into one). -/
theorem C3_witness :
    Aggregate [{ A := zero16, Z := zero16 }, { A := one16, Z := one16 }] =
      specAggregate [{ A := zero16, Z := zero16 }, { A := one16, Z := one16 }] ∧
    (∀ x, covers (Aggregate [{ A := zero16, Z := zero16 }, { A := one16, Z := one16 }]) x ↔
      coversIn [{ A := zero16, Z := zero16 }, { A := one16, Z := one16 }] x) ∧
    (∀ r ∈ Aggregate [{ A := zero16, Z := zero16 }, { A := one16, Z := one16 }],
      val r.A ≤ val r.Z) ∧
    (Aggregate [{ A := zero16, Z := zero16 }, { A := one16, Z := one16 }]).Pairwise disjNA ∧
    (∀ l, (∀ x, covers l x ↔
        coversIn [{ A := zero16, Z := zero16 }, { A := one16, Z := one16 }] x) →
      l.Pairwise disjNA → (∀ r ∈ l, val r.A ≤ val r.Z) →
      (Aggregate [{ A := zero16, Z := zero16 }, { A := one16, Z := one16 }]).length ≤
        l.length) :=
  C3_aggregate_merge _ (by decide) (by decide) (by decide)

theorem Normalize_id {r : Range} (hA : Bytes 16 r.A) (hZ : Bytes 16 r.Z)
    (h : val r.A ≤ val r.Z) : r.Normalize = r := by
  have hc : ¬ Cmp r.A r.Z = 1 := by
    rw [Cmp_eq_one hA hZ]
    omega
  rw [Range.Normalize, if_neg hc]

theorem oldLe_bounds {a b : Range} (ha : Bytes 16 a.A) (hb : Bytes 16 b.A) :
    (oldLe a b = true → val a.A ≤ val b.A) ∧ (oldLe a b = false → val b.A ≤ val a.A) := by
  constructor
  · intro h
    have h2 := of_decide_eq_true (by rwa [oldLe] at h)
    by_cases hc : Cmp a.A b.A = 0
    · have := (Cmp_eq_zero_iff ha hb).1 hc
      omega
    · rw [if_neg hc] at h2
      exact (Cmp_le_zero_iff ha hb).1 h2
  · intro h
    have h2 : ¬ ((if Cmp a.A b.A = 0 then Cmp b.Z a.Z else Cmp a.A b.A) ≤ 0) :=
      of_decide_eq_false (by rwa [oldLe] at h)
    by_cases hc : Cmp a.A b.A = 0
    · have := (Cmp_eq_zero_iff ha hb).1 hc
      omega
    · rw [if_neg hc] at h2
      have h3 : ¬ val a.A ≤ val b.A := fun hle => h2 ((Cmp_le_zero_iff ha hb).2 hle)
      omega

theorem sorted_strict {l : List Range}
    (hs : l.Pairwise (fun a b => val a.A ≤ val b.A))
    (hd : l.Pairwise disjNA)
    (hn : ∀ r ∈ l, val r.A ≤ val r.Z) :
    l.Pairwise (fun a b => val a.A < val b.A) := by
  refine (sorted_disjNA_gap hs hd hn).imp_of_mem ?_
  intro a b ha hb hab
  have := hn a ha
  omega

theorem sweepFold_nomerge : ∀ (t done : List Range) (top : Range),
    (∀ r ∈ t, Bytes 16 r.A ∧ Bytes 16 r.Z) →
    Bytes 16 top.Z →
    (∀ r ∈ t, val top.Z + 1 < val r.A) →
    t.Pairwise (fun r s => val r.Z + 1 < val s.A) →
    (t.foldl sweepStep (done, top)).1 ++ [(t.foldl sweepStep (done, top)).2] =
      done ++ top :: t := by
  intro t
  induction t with
  | nil =>
    intro done top _ _ _ _
    rfl
  | cons s t ih =>
    intro done top hB htZ hgap hpair
    have hsB := hB s (by simp)
    have hsA128 := val_lt_pow128 hsB.1
    have hgs := hgap s (by simp)
    obtain ⟨hlen, hbound, hval, -⟩ :=
      Add_val top.Z one16 (htZ.1.trans bytes_one16.1.symm) htZ.2 bytes_one16.2
    have hnextB : Bytes 16 (Add top.Z one16).1 := ⟨hlen.trans htZ.1, hbound⟩
    have hnextV : val (Add top.Z one16).1 = val top.Z + 1 := by
      rw [hval, val_one16, htZ.1, pow256]
      exact Nat.mod_eq_of_lt (by omega)
    have hstep : sweepStep (done, top) s =
        if 0 ≤ Cmp s.A top.A ∧ Cmp s.A (Add top.Z one16).1 ≤ 0 then
          (done, { A := top.A, Z := if Cmp s.Z top.Z = 1 then s.Z else top.Z })
        else (done ++ [top], s) := rfl
    have hcond : ¬ (0 ≤ Cmp s.A top.A ∧ Cmp s.A (Add top.Z one16).1 ≤ 0) := by
      rintro ⟨-, h2⟩
      rw [Cmp_le_zero_iff hsB.1 hnextB, hnextV] at h2
      omega
    rw [List.foldl_cons, hstep, if_neg hcond,
      ih (done ++ [top]) s (fun u hu => hB u (by simp [hu])) hsB.2
        (fun u hu => (List.pairwise_cons.1 hpair).1 u hu) (List.pairwise_cons.1 hpair).2]
    simp

theorem oldFold_nomerge : ∀ (t done : List Range) (top : Range),
    (∀ r ∈ t, Bytes 16 r.A ∧ Bytes 16 r.Z) →
    Bytes 16 top.Z →
    (∀ r ∈ t, val top.Z + 1 < val r.A) →
    t.Pairwise (fun r s => val r.Z + 1 < val s.A) →
    (∀ r ∈ t, val r.A ≤ val r.Z) →
    (t.foldl oldStep (done, top)).1 ++ [(t.foldl oldStep (done, top)).2] =
      done ++ top :: t := by
  intro t
  induction t with
  | nil =>
    intro done top _ _ _ _ _
    rfl
  | cons s t ih =>
    intro done top hB htZ hgap hpair hN
    have hsB := hB s (by simp)
    have hsA128 := val_lt_pow128 hsB.1
    have hgs := hgap s (by simp)
    have hns := hN s (by simp)
    obtain ⟨hlen, hbound, hval, -⟩ :=
      Add_val top.Z one16 (htZ.1.trans bytes_one16.1.symm) htZ.2 bytes_one16.2
    have hnextB : Bytes 16 (Add top.Z one16).1 := ⟨hlen.trans htZ.1, hbound⟩
    have hnextV : val (Add top.Z one16).1 = val top.Z + 1 := by
      rw [hval, val_one16, htZ.1, pow256]
      exact Nat.mod_eq_of_lt (by omega)
    have hstep : oldStep (done, top) s =
        if 0 ≤ Cmp s.A top.A ∧ Cmp s.Z top.Z ≤ 0 then (done, top)
        else if 0 < Cmp s.A top.A ∧ Cmp s.A (Add top.Z one16).1 = 0 then
          (done, { A := top.A, Z := s.Z })
        else (done ++ [top], s) := rfl
    have hcond1 : ¬ (0 ≤ Cmp s.A top.A ∧ Cmp s.Z top.Z ≤ 0) := by
      rintro ⟨-, h2⟩
      rw [Cmp_le_zero_iff hsB.2 htZ] at h2
      omega
    have hcond2 : ¬ (0 < Cmp s.A top.A ∧ Cmp s.A (Add top.Z one16).1 = 0) := by
      rintro ⟨-, h2⟩
      rw [Cmp_eq_zero_iff hsB.1 hnextB, hnextV] at h2
      omega
    rw [List.foldl_cons, hstep, if_neg hcond1, if_neg hcond2,
      ih (done ++ [top]) s (fun u hu => hB u (by simp [hu])) hsB.2
        (fun u hu => (List.pairwise_cons.1 hpair).1 u hu) (List.pairwise_cons.1 hpair).2
        (fun u hu => hN u (by simp [hu]))]
    simp

/-- C10 (amended, forced by the counterexample `C10_counterexample`): the
two shipped `Aggregate` implementations agree on every well-formed input
collection of normalized, pairwise disjoint, non-adjacent ranges: the
prefix list returned by the part_002 `Aggregate` equals the concatenation
of `Deaggregate` over the ranges returned by the part_003 `Aggregate`, in
order. On overlapping inputs they differ: the old sweep only drops
contained ranges and extends on exact adjacency, while the new sweep also
merges partial overlaps. -/
theorem C10_aggregate_equiv (sR : List Range)
    (hB : ∀ r ∈ sR, Bytes 16 r.A ∧ Bytes 16 r.Z)
    (hN : ∀ r ∈ sR, val r.A ≤ val r.Z)
    (hD : sR.Pairwise disjNA) :
    AggregateOld sR = ((Aggregate sR).mapM Range.Deaggregate).map List.flatten := by
  match sR with
  | [] => rfl
  | [r] =>
    show r.Deaggregate = ((Aggregate [r]).mapM Range.Deaggregate).map List.flatten
    have hA : Aggregate [r] = [r] := rfl
    rw [hA, List.mapM_cons, List.mapM_nil]
    cases hd : r.Deaggregate with
    | none => rfl
    | some l => simp
  | a :: b :: u =>
    have hlen2 : ¬ (a :: b :: u).length < 2 := by
      rw [List.length_cons, List.length_cons]
      omega
    have hmapid : (a :: b :: u).map Range.Normalize = a :: b :: u := by
      have h1 : (a :: b :: u).map Range.Normalize = (a :: b :: u).map id :=
        List.map_congr_left (fun r hr => Normalize_id (hB r hr).1 (hB r hr).2 (hN r hr))
      rw [h1, List.map_id]
    have hpermNew := sortR_perm newLe (a :: b :: u)
    have hpermOld := sortR_perm oldLe (a :: b :: u)
    have hBsNew : ∀ r ∈ sortR newLe (a :: b :: u), Bytes 16 r.A ∧ Bytes 16 r.Z :=
      fun r hr => hB r (hpermNew.mem_iff.1 hr)
    have hsortedNew : (sortR newLe (a :: b :: u)).Pairwise (fun x y => val x.A ≤ val y.A) :=
      sortR_sorted (fun x hx y hy => newLe_bounds (hB x hx).1 (hB y hy).1)
    have hsortedOld : (sortR oldLe (a :: b :: u)).Pairwise (fun x y => val x.A ≤ val y.A) :=
      sortR_sorted (fun x hx y hy => oldLe_bounds (hB x hx).1 (hB y hy).1)
    have hDNew : (sortR newLe (a :: b :: u)).Pairwise disjNA :=
      (hpermNew.pairwise_iff (fun h => Or.symm h)).2 hD
    have hDOld : (sortR oldLe (a :: b :: u)).Pairwise disjNA :=
      (hpermOld.pairwise_iff (fun h => Or.symm h)).2 hD
    have hNNew : ∀ r ∈ sortR newLe (a :: b :: u), val r.A ≤ val r.Z :=
      fun r hr => hN r (hpermNew.mem_iff.1 hr)
    have hNOld : ∀ r ∈ sortR oldLe (a :: b :: u), val r.A ≤ val r.Z :=
      fun r hr => hN r (hpermOld.mem_iff.1 hr)
    have hsorteq : sortR oldLe (a :: b :: u) = sortR newLe (a :: b :: u) :=
      List.eq_of_perm_of_sorted (hpermOld.trans hpermNew.symm)
        (sorted_strict hsortedOld hDOld hNOld) (sorted_strict hsortedNew hDNew hNNew)
    have hgapNew := sorted_disjNA_gap hsortedNew hDNew hNNew
    have hAgg : Aggregate (a :: b :: u) = sortR newLe (a :: b :: u) := by
      rw [Aggregate, if_neg hlen2, hmapid]
      match hsrt : sortR newLe (a :: b :: u) with
      | [] =>
        exfalso
        have hp := hpermNew.length_eq
        rw [hsrt, List.length_nil, List.length_cons, List.length_cons] at hp
        omega
      | h :: t' =>
        dsimp only
        rw [hsrt] at hgapNew hBsNew
        have h2 := sweepFold_nomerge t' [] h (fun r hr => hBsNew r (by simp [hr]))
          (hBsNew h (by simp)).2
          (fun r hr => (List.pairwise_cons.1 hgapNew).1 r hr) (List.pairwise_cons.1 hgapNew).2
        rw [List.nil_append] at h2
        exact h2
    have hOld : AggregateOld (a :: b :: u) =
        ((sortR newLe (a :: b :: u)).mapM Range.Deaggregate).map List.flatten := by
      rw [show AggregateOld (a :: b :: u) =
          (match sortR oldLe (a :: b :: u) with
            | [] => some []
            | h :: t' =>
              (((t'.foldl oldStep ([], h)).1 ++ [(t'.foldl oldStep ([], h)).2]).mapM
                Range.Deaggregate).map List.flatten) from rfl]
      rw [hsorteq]
      match hsrt : sortR newLe (a :: b :: u) with
      | [] =>
        exfalso
        have hp := hpermNew.length_eq
        rw [hsrt, List.length_nil, List.length_cons, List.length_cons] at hp
        omega
      | h :: t' =>
        rw [hsrt] at hgapNew hBsNew hNNew
        have h2 := oldFold_nomerge t' [] h (fun r hr => hBsNew r (by simp [hr]))
          (hBsNew h (by simp)).2
          (fun r hr => (List.pairwise_cons.1 hgapNew).1 r hr) (List.pairwise_cons.1 hgapNew).2
          (fun r hr => hNNew r (by simp [hr]))
        rw [List.nil_append] at h2
        dsimp only
        rw [h2]
    rw [hOld, hAgg]

/-- C10 counterexample: on two partially overlapping ranges the old
`Aggregate` keeps both (it only drops contained ranges and extends on
exact adjacency) while the new `Aggregate` merges them, so the two prefix
lists differ. -/
theorem C10_counterexample :
    AggregateOld [{ A := zero16, Z := byteRep 16 10 },
        { A := byteRep 16 5, Z := byteRep 16 20 }] ≠
      ((Aggregate [{ A := zero16, Z := byteRep 16 10 },
        { A := byteRep 16 5, Z := byteRep 16 20 }]).mapM
          Range.Deaggregate).map List.flatten := by
  decide

/-- C10 witness: the equivalence at a concrete collection of two disjoint
non-adjacent ranges. -/
theorem C10_witness :
    AggregateOld [{ A := zero16, Z := zero16 },
        { A := byteRep 16 3, Z := byteRep 16 5 }] =
      ((Aggregate [{ A := zero16, Z := zero16 },
        { A := byteRep 16 3, Z := byteRep 16 5 }]).mapM
          Range.Deaggregate).map List.flatten :=
  C10_aggregate_equiv _ (by decide) (by decide) (by decide)

theorem is4_iff {a : NAddr} : a.is4 = true ↔ a.fam = AFam.v4 := by
  rw [NAddr.is4]
  cases h : a.fam <;> simp

theorem is6_iff {a : NAddr} : a.is6 = true ↔ a.fam = AFam.v6 := by
  rw [NAddr.is6]
  cases h : a.fam <;> simp

theorem isValid_false_iff {a : NAddr} : a.isValid = false ↔ a.fam = AFam.invalid := by
  rw [NAddr.isValid]
  cases h : a.fam <;> simp

theorem is4In6_fam {a : NAddr} (h : a.is4In6 = true) : a.fam = AFam.v6 := by
  rw [NAddr.is4In6, Bool.and_eq_true] at h
  exact is6_iff.1 h.1

theorem unmap_fam {a : NAddr} (h : a.is4In6 = true) : a.unmap.fam = AFam.v4 := by
  rw [NAddr.unmap, if_pos h]

theorem unmappedFam_invalid {a : NAddr} :
    unmappedFam a = AFam.invalid ↔ a.fam = AFam.invalid := by
  rw [unmappedFam]
  by_cases hm : a.is4In6
  · rw [if_pos hm, unmap_fam hm, is4In6_fam hm]
    simp
  · rw [if_neg hm]

/-- C5 (amended, forced by the counterexample `C5_counterexample`): the
boundary `Deaggregate` has two failure conditions, not one. It returns
the invalid-address error exactly when BOTH addresses are invalid (the
validity check uses `&&`, not `||`); it returns the version-mismatch
error exactly when at least one address is valid but the two addresses do
not share a family after 4-in-6 unmapping — which covers both genuinely
mixed-family valid pairs and pairs with exactly one invalid address; and
it succeeds exactly when the unmapped families agree and are not the
invalid family. -/
theorem C5_boundary_errors (ipLo ipHi : NAddr) :
    (Deaggregate ipLo ipHi = Except.error RErr.EIpInvalid ↔
      ipLo.isValid = false ∧ ipHi.isValid = false) ∧
    (Deaggregate ipLo ipHi = Except.error RErr.EIpVersionMismatch ↔
      ((ipLo.isValid = true ∨ ipHi.isValid = true) ∧
        ¬ (unmappedFam ipLo = unmappedFam ipHi ∧ unmappedFam ipLo ≠ AFam.invalid))) ∧
    ((∃ l, Deaggregate ipLo ipHi = Except.ok l) ↔
      (unmappedFam ipLo = unmappedFam ipHi ∧ unmappedFam ipLo ≠ AFam.invalid)) := by
  have hL4 : (if ipLo.is4In6 then ipLo.unmap else ipLo).is4 = true ↔
      unmappedFam ipLo = AFam.v4 := is4_iff
  have hR4 : (if ipHi.is4In6 then ipHi.unmap else ipHi).is4 = true ↔
      unmappedFam ipHi = AFam.v4 := is4_iff
  have hL6 : (if ipLo.is4In6 then ipLo.unmap else ipLo).is6 = true ↔
      unmappedFam ipLo = AFam.v6 := is6_iff
  have hR6 : (if ipHi.is4In6 then ipHi.unmap else ipHi).is6 = true ↔
      unmappedFam ipHi = AFam.v6 := is6_iff
  rw [Deaggregate]
  by_cases h1 : ipLo.isValid = false ∧ ipHi.isValid = false
  · rw [if_pos h1]
    refine ⟨⟨fun _ => h1, fun _ => rfl⟩, ?_, ?_⟩
    · constructor
      · intro heq
        exact absurd heq (by simp)
      · rintro ⟨hv, -⟩
        exfalso
        rcases hv with h | h
        · rw [h1.1] at h
          exact Bool.noConfusion h
        · rw [h1.2] at h
          exact Bool.noConfusion h
    · constructor
      · rintro ⟨l, hl⟩
        exact absurd hl (by simp)
      · rintro ⟨-, hfn⟩
        exact absurd (unmappedFam_invalid.2 (isValid_false_iff.1 h1.1)) hfn
  · rw [if_neg h1]
    dsimp only
    have hv : ipLo.isValid = true ∨ ipHi.isValid = true := by
      cases hLv : ipLo.isValid with
      | false =>
        cases hRv : ipHi.isValid with
        | false => exact absurd ⟨hLv, hRv⟩ h1
        | true => exact Or.inr rfl
      | true => exact Or.inl rfl
    by_cases h2 : ¬((if ipLo.is4In6 then ipLo.unmap else ipLo).is4 = true ∧
        (if ipHi.is4In6 then ipHi.unmap else ipHi).is4 = true) ∧
      ¬((if ipLo.is4In6 then ipLo.unmap else ipLo).is6 = true ∧
        (if ipHi.is4In6 then ipHi.unmap else ipHi).is6 = true)
    · rw [if_pos h2]
      refine ⟨?_, ?_, ?_⟩
      · constructor
        · intro heq
          exact absurd heq (by simp)
        · rintro ⟨ha, hb⟩
          exact absurd ⟨ha, hb⟩ h1
      · constructor
        · intro heq
          refine ⟨hv, ?_⟩
          rintro ⟨hfe, hfn⟩
          cases hF : unmappedFam ipLo with
          | invalid => exact hfn hF
          | v4 => exact h2.1 ⟨hL4.2 hF, hR4.2 (hfe.symm.trans hF)⟩
          | v6 => exact h2.2 ⟨hL6.2 hF, hR6.2 (hfe.symm.trans hF)⟩
        · intro _
          rfl
      · constructor
        · rintro ⟨l, hl⟩
          exact absurd hl (by simp)
        · rintro ⟨hfe, hfn⟩
          exfalso
          cases hF : unmappedFam ipLo with
          | invalid => exact hfn hF
          | v4 => exact h2.1 ⟨hL4.2 hF, hR4.2 (hfe.symm.trans hF)⟩
          | v6 => exact h2.2 ⟨hL6.2 hF, hR6.2 (hfe.symm.trans hF)⟩
    · rw [if_neg h2]
      have hok : unmappedFam ipLo = unmappedFam ipHi ∧ unmappedFam ipLo ≠ AFam.invalid := by
        rcases not_and_or.1 h2 with h | h
        · obtain ⟨l4, r4⟩ := not_not.1 h
          have hl := hL4.1 l4
          have hr := hR4.1 r4
          refine ⟨hl.trans hr.symm, ?_⟩
          rw [hl]
          simp
        · obtain ⟨l6, r6⟩ := not_not.1 h
          have hl := hL6.1 l6
          have hr := hR6.1 r6
          refine ⟨hl.trans hr.symm, ?_⟩
          rw [hl]
          simp
      refine ⟨?_, ?_, ?_⟩
      · constructor
        · intro heq
          exact absurd heq (by simp)
        · rintro ⟨ha, hb⟩
          exact absurd ⟨ha, hb⟩ h1
      · constructor
        · intro heq
          exact absurd heq (by simp)
        · rintro ⟨-, hnc⟩
          exact absurd hok hnc
      · exact ⟨fun _ => hok, fun _ => ⟨_, rfl⟩⟩

/-- C5 counterexample: two valid addresses of different families (an IPv4
address and an IPv6 address) make the boundary `Deaggregate` return the
version-mismatch error, so invalid-address is not the only failure
condition and an error does not imply an invalid input; moreover a pair
with exactly one invalid address yields the version-mismatch error, not
the invalid-address error. -/
theorem C5_counterexample :
    Deaggregate { fam := AFam.v4, bs := [0, 0, 0, 0, 0, 0, 0, 0, 0, 0, 255, 255, 1, 2, 3, 4] }
        { fam := AFam.v6, bs := [0, 0, 0, 0, 0, 0, 0, 0, 0, 0, 0, 0, 0, 0, 0, 1] } =
      Except.error RErr.EIpVersionMismatch ∧
    NAddr.isValid { fam := AFam.v4, bs := [0, 0, 0, 0, 0, 0, 0, 0, 0, 0, 255, 255, 1, 2, 3, 4] } =
      true ∧
    NAddr.isValid { fam := AFam.v6, bs := [0, 0, 0, 0, 0, 0, 0, 0, 0, 0, 0, 0, 0, 0, 0, 1] } =
      true ∧
    Deaggregate { fam := AFam.invalid, bs := [0, 0, 0, 0, 0, 0, 0, 0, 0, 0, 0, 0, 0, 0, 0, 0] }
        { fam := AFam.v6, bs := [0, 0, 0, 0, 0, 0, 0, 0, 0, 0, 0, 0, 0, 0, 0, 1] } =
      Except.error RErr.EIpVersionMismatch :=
  ⟨rfl, rfl, rfl, rfl⟩

end R2C
